import Mathlib

/-!
Verification of the cross-device link/rename fallback shim
(src/scripts/link_fallback.c).

The C file is embedded shallowly.  The operating system is modelled as a
state (`St`) holding a flat filesystem (an association list from resolved
locations to files), the per-thread `errno` cell, and a counter of status
queries.  Every fallible system call consumes one `Ev` event from an
injected trace; the event decides whether the call fails (and with which
error code), how many bytes a `sendfile` transfer moves, and whether a
`close` clobbers `errno`.  A run that exhausts its finite trace before the
code finishes returns `none` ("the outcome is not determined by this
finite trace"), which is how potential non-termination is observed.

Locations are `(directory descriptor, path)` pairs; the plain-path calls
use the distinguished `AT_FDCWD` descriptor, mirroring POSIX's
`open(p) = openat(AT_FDCWD, p)`.  An open file descriptor is the location
it refers to plus its current file position; `sendfile` with an explicit
offset pointer reads at that offset and ignores the descriptor position,
as the kernel contract specifies.
-/

namespace LinkFallback

/-- Linux error and flag constants used by the source. -/
def ENOENT : Nat := 2
def EBADF : Nat := 9
def EEXIST : Nat := 17
def EXDEV : Nat := 18
def ENOSYS : Nat := 38
def AT_EMPTY_PATH : Nat := 4096
/-- Distinguished directory descriptor for paths relative to the working
directory. -/
def AT_FDCWD : Nat := 100

/-- A resolved location: a directory descriptor together with a path. -/
abbrev Key := Nat × String

/-- A regular file: its byte content and its mode bits. -/
structure File where
  content : List Nat
  mode : Nat
deriving DecidableEq, Repr

/-- An open file descriptor: the location it refers to and its current
file position. -/
structure OpenFd where
  key : Key
  pos : Nat
deriving DecidableEq, Repr

/-- One injected outcome for a system call: `ok` is plain success,
`fail e` makes the call fail with `errno = e`, `sent n` makes a
`sendfile` transfer move at most `n` bytes, `clobber e` makes a
successful `close` overwrite `errno` with `e` (POSIX leaves `errno`
unspecified after success), and `ret r e` is the result/errno pair of a
genuine (non-intercepted) library call. -/
inductive Ev
  | ok
  | fail (e : Nat)
  | sent (n : Nat)
  | clobber (e : Nat)
  | ret (r : Int) (e : Nat)
deriving DecidableEq, Repr

/-- Whether an event makes the call it is consumed by fail. -/
def Ev.isFail : Ev → Bool
  | Ev.fail _ => true
  | _ => false

/-- OS state: the filesystem, the `errno` cell, and a count of the status
queries (`fstat` calls) performed so far. -/
structure St where
  fs : List (Key × File)
  errno : Nat
  fstats : Nat
deriving DecidableEq, Repr

/-- Look a location up in the filesystem. -/
def lookupFs : List (Key × File) → Key → Option File
  | [], _ => none
  | (k0, f0) :: rest, k => if k0 = k then some f0 else lookupFs rest k

/-- Bind a location to a file (replacing any existing binding). -/
def setFs : List (Key × File) → Key → File → List (Key × File)
  | [], k, f => [(k, f)]
  | (k0, f0) :: rest, k, f =>
    if k0 = k then (k, f) :: rest else (k0, f0) :: setFs rest k f

/-- Remove a location from the filesystem. -/
def eraseFs : List (Key × File) → Key → List (Key × File)
  | [], _ => []
  | (k0, f0) :: rest, k =>
    if k0 = k then eraseFs rest k else (k0, f0) :: eraseFs rest k

/-- Model of `open`/`openat` with `O_RDONLY`: fails with `ENOENT` when the file is
absent, otherwise the injected event decides success. -/
def openReadStep (ev : Ev) (k : Key) (st : St) : Bool × St :=
  match lookupFs st.fs k with
  | none => (false, { st with errno := ENOENT })
  | some _ =>
    match ev with
    | Ev.fail e => (false, { st with errno := e })
    | _ => (true, st)

/-- Model of `open`/`openat` with `O_WRONLY | O_CREAT | O_EXCL`: fails with
`EEXIST` when the location is occupied, otherwise creates an empty file
with the given mode. -/
def openExclStep (ev : Ev) (k : Key) (mode : Nat) (st : St) : Bool × St :=
  match lookupFs st.fs k with
  | some _ => (false, { st with errno := EEXIST })
  | none =>
    match ev with
    | Ev.fail e => (false, { st with errno := e })
    | _ => (true, { st with fs := setFs st.fs k ⟨[], mode⟩ })

/-- Model of `open`/`openat` with `O_WRONLY | O_CREAT | O_TRUNC`: truncates an
existing file (keeping its mode, as the kernel does) or creates an empty
file with the given mode. -/
def openTruncStep (ev : Ev) (k : Key) (mode : Nat) (st : St) : Bool × St :=
  match ev with
  | Ev.fail e => (false, { st with errno := e })
  | _ =>
    match lookupFs st.fs k with
    | some f => (true, { st with fs := setFs st.fs k { f with content := [] } })
    | none => (true, { st with fs := setFs st.fs k ⟨[], mode⟩ })

/-- Model of `fstat`: reports the current size and mode of the open file.  Every
call is counted in `st.fstats`. -/
def fstatStep (ev : Ev) (k : Key) (st : St) : Option (Nat × Nat) × St :=
  match ev with
  | Ev.fail e => (none, { st with errno := e, fstats := st.fstats + 1 })
  | _ =>
    match lookupFs st.fs k with
    | some f => (some (f.content.length, f.mode), { st with fstats := st.fstats + 1 })
    | none => (none, { st with errno := EBADF, fstats := st.fstats + 1 })

/-- Model of `unlink`/`unlinkat`: fails with `ENOENT` when the file is absent,
otherwise the injected event decides whether the entry is removed. -/
def unlinkStep (ev : Ev) (k : Key) (st : St) : Bool × St :=
  match lookupFs st.fs k with
  | none => (false, { st with errno := ENOENT })
  | some _ =>
    match ev with
    | Ev.fail e => (false, { st with errno := e })
    | _ => (true, { st with fs := eraseFs st.fs k })

/-- Model of `close`: the source ignores its result; its only observable effect
here is on `errno`, which a failing close sets and a successful close may
clobber. -/
def closeStep (ev : Ev) (st : St) : St :=
  match ev with
  | Ev.fail e => { st with errno := e }
  | Ev.clobber e => { st with errno := e }
  | _ => st

/-- Model of `dup`: duplicates a descriptor (the duplicate shares location and
file position); the injected event decides success. -/
def dupStep (ev : Ev) (st : St) : Bool × St :=
  match ev with
  | Ev.fail e => (false, { st with errno := e })
  | _ => (true, st)

/-- Model of `sendfile(dst, src, &offset, count)`: reads at the explicit source
offset (not at the source descriptor's position) and appends the bytes
moved to the destination file.  A `sent n` event bounds the transfer at
`n` bytes; the kernel additionally bounds it by `count` and by the bytes
available past `offset`. -/
def sendfileStep (ev : Ev) (srcfd dstfd : OpenFd) (offset count : Nat)
    (st : St) : Option Nat × St :=
  match ev with
  | Ev.fail e => (none, { st with errno := e })
  | _ =>
    match lookupFs st.fs srcfd.key, lookupFs st.fs dstfd.key with
    | some sf, some df =>
      let want : Nat := match ev with | Ev.sent n => min n count | _ => count
      let m : Nat := min want (sf.content.length - offset)
      (some m,
        { st with
          fs := setFs st.fs dstfd.key
            { df with content := df.content ++ (sf.content.drop offset).take m } })
    | _, _ => (none, { st with errno := EBADF })

/-- The genuine (non-intercepted) implementation of an overridden entry
point, abstracted by its injected result/errno outcome. -/
def genuineStep (ev : Ev) (st : St) : Int × St :=
  match ev with
  | Ev.ret r e => (r, { st with errno := e })
  | Ev.fail e => (-1, { st with errno := e })
  | _ => (0, st)

/-- The `while (remaining > 0)` transfer loop of `copy_fd`
(lines 16-22): each iteration requests up to `remaining` bytes from the
explicit source offset; an error aborts with `-1`, otherwise the loop
continues with the reduced remaining count. -/
def copyLoop (srcfd dstfd : OpenFd) : Nat → Nat → List Ev → St →
    Option (Int × St × List Ev)
  | 0, _, evs, st => some (0, st, evs)
  | _+1, _, [], _ => none
  | remaining+1, offset, ev :: evs, st =>
    match sendfileStep ev srcfd dstfd offset (remaining + 1) st with
    | (none, st1) => some (-1, st1, evs)
    | (some m, st1) => copyLoop srcfd dstfd (remaining + 1 - m) (offset + m) evs st1

/-- Embedding of `copy_fd` (lines 9-24): query the source's size with `fstat`, then
run the transfer loop from offset 0. -/
def copy_fd (srcfd dstfd : OpenFd) : List Ev → St → Option (Int × St × List Ev)
  | [], _ => none
  | ev :: evs, st =>
    match fstatStep ev srcfd.key st with
    | (none, st1) => some (-1, st1, evs)
    | (some (size, _), st1) => copyLoop srcfd dstfd size 0 evs st1

/-- The recurring cleanup idiom
`int saved = errno; close(fd); errno = saved; return -1;`
(for example lines 33-36). -/
def closeFail : List Ev → St → Option (Int × St × List Ev)
  | [], _ => none
  | ev :: evs, st =>
    let saved := st.errno
    let st1 := closeStep ev st
    some (-1, { st1 with errno := saved }, evs)

/-- Embedding of `fallback_copy_from_path` (lines 26-54): open the source read-only,
`fstat` it, create the destination exclusively with the source's mode
masked to `0o777`, copy, close both, restoring the failing step's errno
around the closes.  `linkat`'s inline fallback (lines 188-214) performs
the identical sequence with descriptor-relative locations, which this
definition also covers since locations subsume both forms. -/
def fallback_copy_from_path (oldk newk : Key) : List Ev → St →
    Option (Int × St × List Ev)
  | [], _ => none
  | ev :: evs, st =>
    match openReadStep ev oldk st with
    | (false, st1) => some (-1, st1, evs)
    | (true, st1) =>
      match evs with
      | [] => none
      | ev :: evs =>
        match fstatStep ev oldk st1 with
        | (none, st2) => closeFail evs st2
        | (some (_, mode), st2) =>
          match evs with
          | [] => none
          | ev :: evs =>
            match openExclStep ev newk (mode &&& 0o777) st2 with
            | (false, st3) => closeFail evs st3
            | (true, st3) =>
              match copy_fd ⟨oldk, 0⟩ ⟨newk, 0⟩ evs st3 with
              | none => none
              | some (result, st4, evs) =>
                match evs with
                | [] => none
                | c1 :: evs =>
                  match evs with
                  | [] => none
                  | c2 :: evs =>
                    let saved := st4.errno
                    let st5 := closeStep c2 (closeStep c1 st4)
                    if result ≠ 0 then some (-1, { st5 with errno := saved }, evs)
                    else some (0, st5, evs)

/-- Embedding of `fallback_copy_from_fd` (lines 56-84): duplicate the caller's
descriptor, then perform the same fstat/exclusive-create/copy/close
sequence reading through the duplicate. -/
def fallback_copy_from_fd (src_fd_in : OpenFd) (newk : Key) : List Ev → St →
    Option (Int × St × List Ev)
  | [], _ => none
  | ev :: evs, st =>
    match dupStep ev st with
    | (false, st1) => some (-1, st1, evs)
    | (true, st1) =>
      match evs with
      | [] => none
      | ev :: evs =>
        match fstatStep ev src_fd_in.key st1 with
        | (none, st2) => closeFail evs st2
        | (some (_, mode), st2) =>
          match evs with
          | [] => none
          | ev :: evs =>
            match openExclStep ev newk (mode &&& 0o777) st2 with
            | (false, st3) => closeFail evs st3
            | (true, st3) =>
              match copy_fd src_fd_in ⟨newk, 0⟩ evs st3 with
              | none => none
              | some (result, st4, evs) =>
                match evs with
                | [] => none
                | c1 :: evs =>
                  match evs with
                  | [] => none
                  | c2 :: evs =>
                    let saved := st4.errno
                    let st5 := closeStep c2 (closeStep c1 st4)
                    if result ≠ 0 then some (-1, { st5 with errno := saved }, evs)
                    else some (0, st5, evs)

/-- Embedding of `fallback_move_at` (lines 125-162): open the source read-only,
`fstat` it, remove any pre-existing destination (a failure with `ENOENT`
is tolerated), create-or-truncate the destination with the source's mode
masked to `0o777`, copy, close both (restoring the failing step's errno),
and only after a successful copy remove the source. -/
def fallback_move_at (oldk newk : Key) : List Ev → St →
    Option (Int × St × List Ev)
  | [], _ => none
  | ev :: evs, st =>
    match openReadStep ev oldk st with
    | (false, st1) => some (-1, st1, evs)
    | (true, st1) =>
      match evs with
      | [] => none
      | ev :: evs =>
        match fstatStep ev oldk st1 with
        | (none, st2) => closeFail evs st2
        | (some (_, mode), st2) =>
          match evs with
          | [] => none
          | ev :: evs =>
            match unlinkStep ev newk st2 with
            | (ok, st3) =>
              if ok = false ∧ st3.errno ≠ ENOENT then closeFail evs st3
              else
                match evs with
                | [] => none
                | ev :: evs =>
                  match openTruncStep ev newk (mode &&& 0o777) st3 with
                  | (false, st4) => closeFail evs st4
                  | (true, st4) =>
                    match copy_fd ⟨oldk, 0⟩ ⟨newk, 0⟩ evs st4 with
                    | none => none
                    | some (result, st5, evs) =>
                      match evs with
                      | [] => none
                      | c1 :: evs =>
                        match evs with
                        | [] => none
                        | c2 :: evs =>
                          let saved := st5.errno
                          let st6 := closeStep c2 (closeStep c1 st5)
                          if result ≠ 0 then
                            some (-1, { st6 with errno := saved }, evs)
                          else
                            match evs with
                            | [] => none
                            | ev :: evs =>
                              match unlinkStep ev oldk st6 with
                              | (false, st7) => some (-1, st7, evs)
                              | (true, st7) => some (0, st7, evs)

/-- Embedding of `fallback_move_from_path` (lines 86-123): the same step sequence as
`fallback_move_at`, with `open`/`unlink` in place of
`openat`/`unlinkat`; in the model those coincide at `AT_FDCWD`-relative
locations. -/
def fallback_move_from_path (oldpath newpath : String) (evs : List Ev) (st : St) :
    Option (Int × St × List Ev) :=
  fallback_move_at (AT_FDCWD, oldpath) (AT_FDCWD, newpath) evs st

/-- Entry point `link` (lines 164-174): genuine call, pass-through unless
it failed with `EXDEV`, otherwise copy-semantics fallback. -/
def link (oldpath newpath : String) : List Ev → St → Option (Int × St × List Ev)
  | [], _ => none
  | ev :: evs, st =>
    let g := genuineStep ev st
    if g.1 = 0 ∨ g.2.errno ≠ EXDEV then some (g.1, g.2, evs)
    else fallback_copy_from_path (AT_FDCWD, oldpath) (AT_FDCWD, newpath) evs g.2

/-- Entry point `linkat` (lines 176-215).  `oldfd` is the open
descriptor that the integer `olddirfd` denotes; it is consulted only by
the `AT_EMPTY_PATH` branch, which operates on that descriptor directly.
A null `oldpath` pointer is `none`. -/
def linkat (oldfd : OpenFd) (olddirfd : Nat) (oldpath : Option String)
    (newdirfd : Nat) (newpath : String) (flags : Nat) :
    List Ev → St → Option (Int × St × List Ev)
  | [], _ => none
  | ev :: evs, st =>
    let g := genuineStep ev st
    if g.1 = 0 ∨ g.2.errno ≠ EXDEV then some (g.1, g.2, evs)
    else if flags &&& AT_EMPTY_PATH ≠ 0 ∧ (oldpath = none ∨ oldpath = some ("")) then
      fallback_copy_from_fd oldfd (newdirfd, newpath) evs g.2
    else
      fallback_copy_from_path (olddirfd, oldpath.getD ("")) (newdirfd, newpath) evs g.2

/-- Entry point `rename` (lines 217-227). -/
def rename (oldpath newpath : String) : List Ev → St → Option (Int × St × List Ev)
  | [], _ => none
  | ev :: evs, st =>
    let g := genuineStep ev st
    if g.1 = 0 ∨ g.2.errno ≠ EXDEV then some (g.1, g.2, evs)
    else fallback_move_from_path oldpath newpath evs g.2

/-- Entry point `renameat` (lines 229-239). -/
def renameat (olddirfd : Nat) (oldpath : String) (newdirfd : Nat)
    (newpath : String) : List Ev → St → Option (Int × St × List Ev)
  | [], _ => none
  | ev :: evs, st =>
    let g := genuineStep ev st
    if g.1 = 0 ∨ g.2.errno ≠ EXDEV then some (g.1, g.2, evs)
    else fallback_move_at (olddirfd, oldpath) (newdirfd, newpath) evs g.2

/-- Entry point `renameat2` (lines 241-261).  `real2` records whether
symbol resolution produced a non-null genuine implementation; when it is
absent, zero flags delegate to `renameat` and non-zero flags signal
`ENOSYS`.  When present: genuine call, pass-through unless it failed with
`EXDEV`, no fallback for non-zero flags, move-semantics fallback for
zero flags. -/
def renameat2 (real2 : Bool) (olddirfd : Nat) (oldpath : String)
    (newdirfd : Nat) (newpath : String) (flags : Nat)
    (evs : List Ev) (st : St) : Option (Int × St × List Ev) :=
  if real2 = false then
    if flags = 0 then renameat olddirfd oldpath newdirfd newpath evs st
    else some (-1, { st with errno := ENOSYS }, evs)
  else
    match evs with
    | [] => none
    | ev :: evs =>
      let g := genuineStep ev st
      if g.1 = 0 ∨ g.2.errno ≠ EXDEV then some (g.1, g.2, evs)
      else if flags ≠ 0 then some (g.1, g.2, evs)
      else fallback_move_at (olddirfd, oldpath) (newdirfd, newpath) evs g.2

/-- The memoizing symbol-resolution idiom
`if (!real) real = dlsym(RTLD_NEXT, name);` (for example lines 166-168):
given the cached address (`none` is the null pointer) and the address the
loader would currently return, produce the new cache and whether the
loader was queried. -/
def lookupOnce (cache : Option Nat) (dlsymResult : Option Nat) :
    Option Nat × Bool :=
  match cache with
  | some a => (some a, false)
  | none => (dlsymResult, true)

/-- A sequence of invocations of one entry point: `ds` lists, per
invocation, the address the loader would return if queried; the result
lists which invocations actually queried the loader. -/
def runInvocations : Option Nat → List (Option Nat) → List Bool
  | _, [] => []
  | cache, d :: ds =>
    let r := lookupOnce cache d
    r.2 :: runInvocations r.1 ds

/-- Projection: the return value of a determined run. -/
def runCode : Option (Int × St × List Ev) → Option Int
  | none => none
  | some (c, _, _) => some c

/-- Projection: the final `errno` of a determined run. -/
def runErrno : Option (Int × St × List Ev) → Option Nat
  | none => none
  | some (_, s, _) => some s.errno

/-- Projection: the final filesystem of a determined run. -/
def runFs : Option (Int × St × List Ev) → Option (List (Key × File))
  | none => none
  | some (_, s, _) => some s.fs

/-- Projection: the final status-query count of a determined run. -/
def runFstats : Option (Int × St × List Ev) → Option Nat
  | none => none
  | some (_, s, _) => some s.fstats

/-- Projection: what a location holds after a determined run. -/
def runLookup (k : Key) : Option (Int × St × List Ev) → Option (Option File)
  | none => none
  | some (_, s, _) => some (lookupFs s.fs k)

/-- The first `n` events of an infinite event stream. -/
def streamTake (f : Nat → Ev) : Nat → List Ev
  | 0 => []
  | n + 1 => f 0 :: streamTake (fun i => f (i + 1)) n

/-- The byte-range copier terminates against the event stream `f`: some
finite prefix of `f` already determines its outcome. -/
def copyTerminates (srcfd dstfd : OpenFd) (f : Nat → Ev) (st : St) : Prop :=
  ∃ n, (copy_fd srcfd dstfd (streamTake f n) st).isSome

/-- The event stream never answers a transfer with "zero bytes moved, no
error". -/
def NoZeroSend (f : Nat → Ev) : Prop :=
  ∀ i, f i ≠ Ev.sent 0

/-! Concrete fixtures used by witnesses and counterexamples. -/

/-- Fixture: a source location. -/
def wkA : Key := (AT_FDCWD, "srcfile")
/-- Fixture: a destination location. -/
def wkB : Key := (AT_FDCWD, "dstfile")
/-- Fixture: a two-byte source file. -/
def wfA : File := ⟨[7, 8], 0o644⟩
/-- Fixture: a one-byte file occupying the destination. -/
def wfB : File := ⟨[9], 0o600⟩
/-- Fixture: state with only the source file. -/
def wst0 : St := ⟨[(wkA, wfA)], 0, 0⟩
/-- Fixture: state with both source and destination files. -/
def wstB : St := ⟨[(wkA, wfA), (wkB, wfB)], 0, 0⟩
/-- Fixture: source descriptor at position 0. -/
def wfdA : OpenFd := ⟨wkA, 0⟩
/-- Fixture: destination descriptor at position 0. -/
def wfdB : OpenFd := ⟨wkB, 0⟩
/-- Fixture: an event stream that always answers plain success. -/
def okStream : Nat → Ev := fun _ => Ev.ok
/-- Fixture: an event stream whose every transfer moves zero bytes. -/
def zeroStream : Nat → Ev := fun _ => Ev.sent 0

end LinkFallback

namespace LinkFallback

/-! ### Association-list filesystem lemmas -/

theorem lookupFs_setFs_self (fs : List (Key × File)) (k : Key) (f : File) :
    lookupFs (setFs fs k f) k = some f := by
  induction fs with
  | nil => simp [setFs, lookupFs]
  | cons p rest ih =>
    obtain ⟨k0, f0⟩ := p
    by_cases h : k0 = k
    · simp [setFs, h, lookupFs]
    · simp [setFs, h, lookupFs, ih]

theorem lookupFs_setFs_ne (fs : List (Key × File)) (k k' : Key) (f : File)
    (h : k' ≠ k) : lookupFs (setFs fs k f) k' = lookupFs fs k' := by
  induction fs with
  | nil => simp [setFs, lookupFs, Ne.symm h]
  | cons p rest ih =>
    obtain ⟨k0, f0⟩ := p
    by_cases h0 : k0 = k
    · subst h0
      simp [setFs, lookupFs, Ne.symm h]
    · simp only [setFs, if_neg h0, lookupFs]
      by_cases h1 : k0 = k'
      · simp [h1]
      · simp [h1, ih]

theorem lookupFs_eraseFs_self (fs : List (Key × File)) (k : Key) :
    lookupFs (eraseFs fs k) k = none := by
  induction fs with
  | nil => simp [eraseFs, lookupFs]
  | cons p rest ih =>
    obtain ⟨k0, f0⟩ := p
    by_cases h : k0 = k
    · simp [eraseFs, h, ih]
    · simp [eraseFs, h, lookupFs, ih]

theorem lookupFs_eraseFs_ne (fs : List (Key × File)) (k k' : Key)
    (h : k' ≠ k) : lookupFs (eraseFs fs k) k' = lookupFs fs k' := by
  induction fs with
  | nil => simp [eraseFs]
  | cons p rest ih =>
    obtain ⟨k0, f0⟩ := p
    by_cases h0 : k0 = k
    · subst h0
      simp [eraseFs, lookupFs, Ne.symm h, ih]
    · simp only [eraseFs, if_neg h0, lookupFs, ih]

theorem setFs_setFs_self (fs : List (Key × File)) (k : Key) (f g : File) :
    setFs (setFs fs k f) k g = setFs fs k g := by
  induction fs with
  | nil => simp [setFs]
  | cons p rest ih =>
    obtain ⟨k0, f0⟩ := p
    by_cases h : k0 = k
    · simp [setFs, h]
    · simp [setFs, h, ih]

theorem setFs_lookup_self (fs : List (Key × File)) (k : Key) (f : File)
    (h : lookupFs fs k = some f) : setFs fs k f = fs := by
  induction fs with
  | nil => simp [lookupFs] at h
  | cons p rest ih =>
    obtain ⟨k0, f0⟩ := p
    by_cases h0 : k0 = k
    · subst h0
      simp [lookupFs] at h
      simp [setFs, h]
    · simp [lookupFs, h0] at h
      simp [setFs, h0, ih h]

end LinkFallback

namespace LinkFallback

/-! ### Inversion lemmas for the system-call steps -/

theorem openReadStep_true {ev : Ev} {k : Key} {st st' : St}
    (h : openReadStep ev k st = (true, st')) :
    st' = st ∧ ∃ f, lookupFs st.fs k = some f := by
  unfold openReadStep at h
  cases hl : lookupFs st.fs k <;> rw [hl] at h
  · simp at h
  · cases ev <;> simp_all

theorem openReadStep_false {ev : Ev} {k : Key} {st st' : St}
    (h : openReadStep ev k st = (false, st')) :
    st'.fs = st.fs ∧ st'.fstats = st.fstats := by
  unfold openReadStep at h
  cases hl : lookupFs st.fs k <;> rw [hl] at h
  · rw [Prod.mk.injEq] at h
    obtain ⟨-, h2⟩ := h
    subst h2
    exact ⟨rfl, rfl⟩
  · cases ev <;> rw [Prod.mk.injEq] at h <;> obtain ⟨h1, h2⟩ := h <;>
      first
        | exact absurd h1 (by decide)
        | (subst h2; exact ⟨rfl, rfl⟩)

theorem openReadStep_notFail {ev : Ev} {k : Key} {st : St} {f : File}
    (hev : ev.isFail = false) (hl : lookupFs st.fs k = some f) :
    openReadStep ev k st = (true, st) := by
  unfold openReadStep
  rw [hl]
  cases ev <;> simp_all [Ev.isFail]

theorem fstatStep_some {ev : Ev} {k : Key} {st st' : St} {sz md : Nat}
    (h : fstatStep ev k st = (some (sz, md), st')) :
    st' = { st with fstats := st.fstats + 1 } ∧
      ∃ f, lookupFs st.fs k = some f ∧ sz = f.content.length ∧ md = f.mode := by
  unfold fstatStep at h
  cases ev <;> try simp at h
  all_goals
    cases hl : lookupFs st.fs k <;> rw [hl] at h <;> rw [Prod.mk.injEq] at h <;>
      obtain ⟨h1, h2⟩ := h
  all_goals
    first
      | (rw [Option.some.injEq, Prod.mk.injEq] at h1
         subst h2
         exact ⟨rfl, _, rfl, h1.1.symm, h1.2.symm⟩)
      | cases h1

theorem fstatStep_none {ev : Ev} {k : Key} {st st' : St}
    (h : fstatStep ev k st = (none, st')) :
    st'.fs = st.fs ∧ st'.fstats = st.fstats + 1 := by
  unfold fstatStep at h
  cases ev <;> try (rw [Prod.mk.injEq] at h; obtain ⟨h1, h2⟩ := h; subst h2; exact ⟨rfl, rfl⟩)
  all_goals
    cases hl : lookupFs st.fs k <;> rw [hl] at h <;> rw [Prod.mk.injEq] at h <;>
      obtain ⟨h1, h2⟩ := h <;> subst h2 <;> exact ⟨rfl, rfl⟩

theorem fstatStep_notFail {ev : Ev} {k : Key} {st : St} {f : File}
    (hev : ev.isFail = false) (hl : lookupFs st.fs k = some f) :
    fstatStep ev k st =
      (some (f.content.length, f.mode), { st with fstats := st.fstats + 1 }) := by
  unfold fstatStep
  cases ev <;> simp_all [Ev.isFail]

theorem openExclStep_true {ev : Ev} {k : Key} {m : Nat} {st st' : St}
    (h : openExclStep ev k m st = (true, st')) :
    lookupFs st.fs k = none ∧ st' = { st with fs := setFs st.fs k ⟨[], m⟩ } := by
  unfold openExclStep at h
  cases hl : lookupFs st.fs k <;> rw [hl] at h
  · cases ev <;> simp_all
  · simp at h

theorem openExclStep_false {ev : Ev} {k : Key} {m : Nat} {st st' : St}
    (h : openExclStep ev k m st = (false, st')) :
    st'.fs = st.fs ∧ st'.fstats = st.fstats := by
  unfold openExclStep at h
  cases hl : lookupFs st.fs k <;> rw [hl] at h
  · cases ev <;> rw [Prod.mk.injEq] at h <;> obtain ⟨h1, h2⟩ := h <;>
      first
        | exact absurd h1 (by decide)
        | (subst h2; exact ⟨rfl, rfl⟩)
  · rw [Prod.mk.injEq] at h
    obtain ⟨-, h2⟩ := h
    subst h2
    exact ⟨rfl, rfl⟩

theorem openExclStep_occupied {ev : Ev} {k : Key} {m : Nat} {st : St} {f : File}
    (hl : lookupFs st.fs k = some f) :
    openExclStep ev k m st = (false, { st with errno := EEXIST }) := by
  unfold openExclStep
  rw [hl]

theorem openTruncStep_true {ev : Ev} {k : Key} {m : Nat} {st st' : St}
    (h : openTruncStep ev k m st = (true, st')) :
    ∃ f, st' = { st with fs := setFs st.fs k f } ∧ f.content = [] ∧
      (lookupFs st.fs k = none → f = ⟨[], m⟩) := by
  unfold openTruncStep at h
  cases ev <;> try simp at h
  all_goals
    cases hl : lookupFs st.fs k <;> rw [hl] at h <;> rw [Prod.mk.injEq] at h <;>
      obtain ⟨h1, h2⟩ := h <;> subst h2
  all_goals
    first
      | exact ⟨⟨[], m⟩, rfl, rfl, fun _ => rfl⟩
      | (refine ⟨_, rfl, rfl, fun hh => absurd hh ?_⟩
         simp)

theorem openTruncStep_false {ev : Ev} {k : Key} {m : Nat} {st st' : St}
    (h : openTruncStep ev k m st = (false, st')) :
    st'.fs = st.fs ∧ st'.fstats = st.fstats := by
  unfold openTruncStep at h
  cases ev <;>
    first
      | (rw [Prod.mk.injEq] at h
         obtain ⟨-, h2⟩ := h
         subst h2
         exact ⟨rfl, rfl⟩)
      | (cases hl : lookupFs st.fs k <;> rw [hl] at h <;> rw [Prod.mk.injEq] at h <;>
          exact absurd h.1 (by decide))

theorem unlinkStep_true {ev : Ev} {k : Key} {st st' : St}
    (h : unlinkStep ev k st = (true, st')) :
    st' = { st with fs := eraseFs st.fs k } := by
  unfold unlinkStep at h
  cases hl : lookupFs st.fs k <;> rw [hl] at h
  · simp at h
  · cases ev <;> simp_all

theorem unlinkStep_false {ev : Ev} {k : Key} {st st' : St}
    (h : unlinkStep ev k st = (false, st')) :
    st'.fs = st.fs ∧ st'.fstats = st.fstats := by
  unfold unlinkStep at h
  cases hl : lookupFs st.fs k <;> rw [hl] at h
  · rw [Prod.mk.injEq] at h
    obtain ⟨-, h2⟩ := h
    subst h2
    exact ⟨rfl, rfl⟩
  · cases ev <;> rw [Prod.mk.injEq] at h <;> obtain ⟨h1, h2⟩ := h <;>
      first
        | exact absurd h1 (by decide)
        | (subst h2; exact ⟨rfl, rfl⟩)

theorem closeStep_fs (ev : Ev) (st : St) : (closeStep ev st).fs = st.fs := by
  cases ev <;> rfl

theorem closeStep_fstats (ev : Ev) (st : St) :
    (closeStep ev st).fstats = st.fstats := by
  cases ev <;> rfl

theorem dupStep_true {ev : Ev} {st st' : St}
    (h : dupStep ev st = (true, st')) : st' = st := by
  unfold dupStep at h
  cases ev <;> simp_all

theorem dupStep_false {ev : Ev} {st st' : St}
    (h : dupStep ev st = (false, st')) :
    st'.fs = st.fs ∧ st'.fstats = st.fstats := by
  unfold dupStep at h
  cases ev <;> rw [Prod.mk.injEq] at h <;> obtain ⟨h1, h2⟩ := h <;>
    first
      | exact absurd h1 (by decide)
      | (subst h2; exact ⟨rfl, rfl⟩)

theorem closeFail_inv {evs evs' : List Ev} {st st' : St} {code : Int}
    (h : closeFail evs st = some (code, st', evs')) :
    code = -1 ∧ st'.fs = st.fs ∧ st'.fstats = st.fstats ∧ st'.errno = st.errno := by
  cases evs with
  | nil => simp [closeFail] at h
  | cons ev rest =>
    simp only [closeFail, Option.some.injEq, Prod.mk.injEq] at h
    obtain ⟨hc, hst, -⟩ := h
    subst hst
    exact ⟨hc.symm, closeStep_fs ev st, closeStep_fstats ev st, rfl⟩

end LinkFallback

namespace LinkFallback

/-! ### The byte-range copier -/

theorem sendfileStep_some {ev : Ev} {srcfd dstfd : OpenFd} {offset count : Nat}
    {st st' : St} {m : Nat}
    (h : sendfileStep ev srcfd dstfd offset count st = (some m, st')) :
    ∃ sf df, lookupFs st.fs srcfd.key = some sf ∧
      lookupFs st.fs dstfd.key = some df ∧
      m = min (match ev with | Ev.sent n => min n count | _ => count)
        (sf.content.length - offset) ∧
      st' = { st with
        fs := setFs st.fs dstfd.key
          { df with content := df.content ++ (sf.content.drop offset).take m } } := by
  unfold sendfileStep at h
  cases ev
  case fail e =>
    rw [Prod.mk.injEq] at h
    exact absurd h.1 (by simp)
  all_goals
    cases hl1 : lookupFs st.fs srcfd.key <;> rw [hl1] at h <;>
      cases hl2 : lookupFs st.fs dstfd.key <;> rw [hl2] at h <;>
      rw [Prod.mk.injEq] at h <;> obtain ⟨h1, h2⟩ := h
  all_goals
    first
      | (rw [Option.some.injEq] at h1
         subst h1
         subst h2
         exact ⟨_, _, rfl, rfl, rfl, rfl⟩)
      | cases h1

theorem sendfileStep_none {ev : Ev} {srcfd dstfd : OpenFd} {offset count : Nat}
    {st st' : St}
    (h : sendfileStep ev srcfd dstfd offset count st = (none, st')) :
    st'.fs = st.fs ∧ st'.fstats = st.fstats := by
  unfold sendfileStep at h
  cases ev
  case fail e =>
    rw [Prod.mk.injEq] at h
    obtain ⟨-, h2⟩ := h
    subst h2
    exact ⟨rfl, rfl⟩
  all_goals
    cases hl1 : lookupFs st.fs srcfd.key <;> rw [hl1] at h <;>
      cases hl2 : lookupFs st.fs dstfd.key <;> rw [hl2] at h <;>
      rw [Prod.mk.injEq] at h <;> obtain ⟨h1, h2⟩ := h
  all_goals
    first
      | (subst h2; exact ⟨rfl, rfl⟩)
      | cases h1

theorem copyLoop_frame {srcfd dstfd : OpenFd} {evs : List Ev}
    {remaining offset : Nat} {st st' : St} {code : Int} {evs' : List Ev}
    (h : copyLoop srcfd dstfd remaining offset evs st = some (code, st', evs')) :
    (∀ k, k ≠ dstfd.key → lookupFs st'.fs k = lookupFs st.fs k) ∧
      st'.fstats = st.fstats ∧ (code = 0 ∨ code = -1) := by
  induction evs generalizing remaining offset st with
  | nil =>
    cases remaining with
    | zero =>
      simp only [copyLoop, Option.some.injEq, Prod.mk.injEq] at h
      obtain ⟨hc, hst, -⟩ := h
      subst hst
      exact ⟨fun k _ => rfl, rfl, Or.inl hc.symm⟩
    | succ r => simp [copyLoop] at h
  | cons ev rest ih =>
    cases remaining with
    | zero =>
      simp only [copyLoop, Option.some.injEq, Prod.mk.injEq] at h
      obtain ⟨hc, hst, -⟩ := h
      subst hst
      exact ⟨fun k _ => rfl, rfl, Or.inl hc.symm⟩
    | succ r =>
      simp only [copyLoop] at h
      rcases hs : sendfileStep ev srcfd dstfd offset (r + 1) st with ⟨mr, st1⟩
      rw [hs] at h
      cases mr with
      | none =>
        simp only [Option.some.injEq, Prod.mk.injEq] at h
        obtain ⟨hc, hst, -⟩ := h
        subst hst
        obtain ⟨hfs, hfst⟩ := sendfileStep_none hs
        exact ⟨fun k _ => by rw [hfs], hfst, Or.inr hc.symm⟩
      | some m =>
        obtain ⟨hf, hstats, hcode⟩ := ih h
        obtain ⟨sf, df, hsf, hdf, hm, hst1⟩ := sendfileStep_some hs
        subst hst1
        refine ⟨fun k hk => ?_, by simpa using hstats, hcode⟩
        rw [hf k hk]
        simp [lookupFs_setFs_ne _ _ _ _ hk]

theorem copyLoop_success {srcfd dstfd : OpenFd} {evs : List Ev}
    {remaining offset : Nat} {st st' : St} {evs' : List Ev} {sf df : File}
    (hne : srcfd.key ≠ dstfd.key)
    (hsf : lookupFs st.fs srcfd.key = some sf)
    (hdf : lookupFs st.fs dstfd.key = some df)
    (hrem : remaining = sf.content.length - offset)
    (hdc : df.content = sf.content.take offset)
    (h : copyLoop srcfd dstfd remaining offset evs st = some (0, st', evs')) :
    st' = { st with fs := setFs st.fs dstfd.key ⟨sf.content, df.mode⟩ } := by
  induction evs generalizing remaining offset st df with
  | nil =>
    cases remaining with
    | zero =>
      simp only [copyLoop, Option.some.injEq, Prod.mk.injEq] at h
      obtain ⟨-, hst, -⟩ := h
      subst hst
      have hoff : sf.content.length ≤ offset := Nat.le_of_sub_eq_zero hrem.symm
      have hdone : df = (⟨sf.content, df.mode⟩ : File) := by
        obtain ⟨dc, dm⟩ := df
        simp only [File.mk.injEq, and_true]
        simpa [List.take_of_length_le hoff] using hdc
      rw [← hdone, setFs_lookup_self st.fs dstfd.key df hdf]
    | succ r => simp [copyLoop] at h
  | cons ev rest ih =>
    cases remaining with
    | zero =>
      simp only [copyLoop, Option.some.injEq, Prod.mk.injEq] at h
      obtain ⟨-, hst, -⟩ := h
      subst hst
      have hoff : sf.content.length ≤ offset := Nat.le_of_sub_eq_zero hrem.symm
      have hdone : df = (⟨sf.content, df.mode⟩ : File) := by
        obtain ⟨dc, dm⟩ := df
        simp only [File.mk.injEq, and_true]
        simpa [List.take_of_length_le hoff] using hdc
      rw [← hdone, setFs_lookup_self st.fs dstfd.key df hdf]
    | succ r =>
      simp only [copyLoop] at h
      rcases hs : sendfileStep ev srcfd dstfd offset (r + 1) st with ⟨mr, st1⟩
      rw [hs] at h
      cases mr with
      | none =>
        simp only [Option.some.injEq, Prod.mk.injEq] at h
        exact absurd h.1 (by decide)
      | some m =>
        obtain ⟨sf0, df0, hsf0, hdf0, hm, hst1⟩ := sendfileStep_some hs
        have hsfe : sf = sf0 := Option.some.inj (hsf.symm.trans hsf0)
        have hdfe : df = df0 := Option.some.inj (hdf.symm.trans hdf0)
        subst hsfe
        subst hdfe
        have hmle : m ≤ sf.content.length - offset := by
          rw [hm]; exact Nat.min_le_right _ _
        have hsf1 : lookupFs st1.fs srcfd.key = some sf := by
          rw [hst1]
          simpa using (lookupFs_setFs_ne st.fs dstfd.key srcfd.key _ hne).trans hsf
        have hdf1 : lookupFs st1.fs dstfd.key =
            some { df with content := df.content ++ (sf.content.drop offset).take m } := by
          rw [hst1]
          simpa using lookupFs_setFs_self st.fs dstfd.key _
        have hrem1 : r + 1 - m = sf.content.length - (offset + m) := by
          omega
        have hdc1 : ({ df with content := df.content ++ (sf.content.drop offset).take m } : File).content
            = sf.content.take (offset + m) := by
          simp only [List.take_add]
          rw [hdc]
        have := ih hsf1 hdf1 hrem1 hdc1 h
        rw [this, hst1]
        simp [setFs_setFs_self]

theorem sendfileStep_progress {ev : Ev} {srcfd dstfd : OpenFd}
    {offset count : Nat} {st st' : St} {m : Nat} {sf : File}
    (h : sendfileStep ev srcfd dstfd offset count st = (some m, st'))
    (hev : ev ≠ Ev.sent 0)
    (hsf : lookupFs st.fs srcfd.key = some sf)
    (hc : 1 ≤ count) (hav : 1 ≤ sf.content.length - offset) : 1 ≤ m := by
  obtain ⟨sf0, df0, hsf0, hdf0, hm, -⟩ := sendfileStep_some h
  have hse : sf = sf0 := Option.some.inj (hsf.symm.trans hsf0)
  subst hse
  rw [hm]
  refine Nat.le_min.mpr ⟨?_, hav⟩
  cases ev with
  | sent n =>
    have hn : n ≠ 0 := fun h0 => hev (by rw [h0])
    exact Nat.le_min.mpr ⟨Nat.one_le_iff_ne_zero.mpr hn, hc⟩
  | ok => exact hc
  | fail e => exact hc
  | clobber e => exact hc
  | ret r0 e0 => exact hc

theorem copyLoop_fail_head (srcfd dstfd : OpenFd) (r offset e : Nat)
    (evs : List Ev) (st : St) :
    copyLoop srcfd dstfd (r + 1) offset (Ev.fail e :: evs) st =
      some (-1, { st with errno := e }, evs) := rfl

theorem copyLoop_sent_zero {srcfd dstfd : OpenFd} {r offset : Nat}
    {evs : List Ev} {st : St} {sf df : File}
    (hsf : lookupFs st.fs srcfd.key = some sf)
    (hdf : lookupFs st.fs dstfd.key = some df) :
    copyLoop srcfd dstfd (r + 1) offset (Ev.sent 0 :: evs) st =
      copyLoop srcfd dstfd (r + 1) offset evs st := by
  obtain ⟨dc, dm⟩ := df
  have hstep : sendfileStep (Ev.sent 0) srcfd dstfd offset (r + 1) st =
      (some 0, st) := by
    unfold sendfileStep
    rw [hsf, hdf]
    simp [setFs_lookup_self st.fs dstfd.key _ hdf]
  simp only [copyLoop]
  rw [hstep]
  simp

theorem copyLoop_terminates {srcfd dstfd : OpenFd} :
    ∀ (remaining offset : Nat) (st : St) (evs : List Ev),
      (∀ ev ∈ evs, ev ≠ Ev.sent 0) → remaining ≤ evs.length →
      (∀ sf, lookupFs st.fs srcfd.key = some sf →
        remaining ≤ sf.content.length - offset) →
      (copyLoop srcfd dstfd remaining offset evs st).isSome := by
  intro remaining
  induction remaining using Nat.strong_induction_on with
  | _ remaining ih =>
    intro offset st evs hno hlen hav
    cases remaining with
    | zero => simp [copyLoop]
    | succ r =>
      cases evs with
      | nil => simp at hlen
      | cons ev rest =>
        simp only [copyLoop]
        rcases hs : sendfileStep ev srcfd dstfd offset (r + 1) st with ⟨mr, st1⟩
        cases mr with
        | none => simp
        | some m =>
          obtain ⟨sf, df, hsf, hdf, hm, hst1⟩ := sendfileStep_some hs
          have hav1 : r + 1 ≤ sf.content.length - offset := hav sf hsf
          have hm1 : 1 ≤ m :=
            sendfileStep_progress hs (hno ev (List.mem_cons_self _ _)) hsf
              (by omega) (by omega)
          have hmle : m ≤ sf.content.length - offset := by
            rw [hm]; exact Nat.min_le_right _ _
          have hno1 : ∀ e ∈ rest, e ≠ Ev.sent 0 :=
            fun e he => hno e (List.mem_cons_of_mem _ he)
          have hlen1 : r + 1 - m ≤ rest.length := by
            simp only [List.length_cons] at hlen
            omega
          have hav2 : ∀ sf', lookupFs st1.fs srcfd.key = some sf' →
              r + 1 - m ≤ sf'.content.length - (offset + m) := by
            intro sf' hsf'
            by_cases hkey : srcfd.key = dstfd.key
            · rw [hst1, hkey, lookupFs_setFs_self] at hsf'
              have hsd : sf = df := by
                rw [hkey] at hsf
                exact Option.some.inj (hsf.symm.trans hdf)
              have hsf'e : sf' =
                  { df with content := df.content ++ (sf.content.drop offset).take m } :=
                (Option.some.inj hsf').symm
              subst hsf'e
              simp only [List.length_append, List.length_take, List.length_drop]
              have hlendf : df.content.length = sf.content.length := by rw [← hsd]
              omega
            · rw [hst1, lookupFs_setFs_ne _ _ _ _ hkey] at hsf'
              have : sf = sf' := Option.some.inj (hsf.symm.trans hsf')
              subst this
              omega
          have hdone := ih (r + 1 - m) (by omega) (offset + m) st1 rest hno1 hlen1 hav2
          simpa using hdone

theorem copy_fd_success {srcfd dstfd : OpenFd} {evs : List Ev} {st st' : St}
    {evs' : List Ev} {sf df : File}
    (hne : srcfd.key ≠ dstfd.key)
    (hsf : lookupFs st.fs srcfd.key = some sf)
    (hdf : lookupFs st.fs dstfd.key = some df)
    (hdc : df.content = [])
    (h : copy_fd srcfd dstfd evs st = some (0, st', evs')) :
    st' = { st with fs := setFs st.fs dstfd.key ⟨sf.content, df.mode⟩,
                    fstats := st.fstats + 1 } := by
  cases evs with
  | nil => simp [copy_fd] at h
  | cons ev rest =>
    simp only [copy_fd] at h
    rcases hf : fstatStep ev srcfd.key st with ⟨ro, st1⟩
    rw [hf] at h
    cases ro with
    | none =>
      simp only [Option.some.injEq, Prod.mk.injEq] at h
      exact absurd h.1 (by decide)
    | some p =>
      obtain ⟨sz, md⟩ := p
      obtain ⟨hst1, f, hlf, hsz, hmd⟩ := fstatStep_some hf
      have hfe : sf = f := Option.some.inj (hsf.symm.trans hlf)
      subst hfe
      subst hst1
      subst hsz
      have := @copyLoop_success srcfd dstfd rest sf.content.length 0
        { st with fstats := st.fstats + 1 } st' evs' sf df hne hsf hdf
        (by simp : sf.content.length = sf.content.length - 0)
        (hdc.trans (by simp : ([] : List Nat) = List.take 0 sf.content)) h
      rw [this]

theorem copy_fd_frame {srcfd dstfd : OpenFd} {evs : List Ev} {st st' : St}
    {code : Int} {evs' : List Ev}
    (h : copy_fd srcfd dstfd evs st = some (code, st', evs')) :
    (∀ k, k ≠ dstfd.key → lookupFs st'.fs k = lookupFs st.fs k) ∧
      st'.fstats = st.fstats + 1 ∧ (code = 0 ∨ code = -1) := by
  cases evs with
  | nil => simp [copy_fd] at h
  | cons ev rest =>
    simp only [copy_fd] at h
    rcases hf : fstatStep ev srcfd.key st with ⟨ro, st1⟩
    rw [hf] at h
    cases ro with
    | none =>
      simp only [Option.some.injEq, Prod.mk.injEq] at h
      obtain ⟨hc, hst, -⟩ := h
      subst hst
      obtain ⟨hfs, hfst⟩ := fstatStep_none hf
      exact ⟨fun k _ => by rw [hfs], hfst, Or.inr hc.symm⟩
    | some p =>
      obtain ⟨sz, md⟩ := p
      obtain ⟨hst1, f, hlf, hsz, hmd⟩ := fstatStep_some hf
      obtain ⟨hfr, hfst, hcode⟩ := copyLoop_frame h
      subst hst1
      exact ⟨fun k hk => hfr k hk, by simpa using hfst, hcode⟩

theorem streamTake_length (f : Nat → Ev) (n : Nat) :
    (streamTake f n).length = n := by
  induction n generalizing f with
  | zero => rfl
  | succ k ih => simp [streamTake, ih]

theorem streamTake_mem {f : Nat → Ev} {n : Nat} {ev : Ev}
    (h : ev ∈ streamTake f n) : ∃ i, ev = f i := by
  induction n generalizing f with
  | zero => simp [streamTake] at h
  | succ k ih =>
    simp only [streamTake, List.mem_cons] at h
    rcases h with h | h
    · exact ⟨0, h⟩
    · obtain ⟨i, hi⟩ := ih h
      exact ⟨i + 1, hi⟩

theorem copy_fd_terminates {srcfd dstfd : OpenFd} {f : Nat → Ev} {st : St}
    (hf : NoZeroSend f) : copyTerminates srcfd dstfd f st := by
  cases hl : lookupFs st.fs srcfd.key with
  | none =>
    refine ⟨1, ?_⟩
    show (copy_fd srcfd dstfd [f 0] st).isSome
    cases hev : f 0 <;> simp [copy_fd, fstatStep, hl]
  | some sf =>
    refine ⟨sf.content.length + 1, ?_⟩
    show (copy_fd srcfd dstfd
      (f 0 :: streamTake (fun i => f (i + 1)) sf.content.length) st).isSome
    have hstep : ∀ ev : Ev, ev.isFail = false →
        (copy_fd srcfd dstfd
          (ev :: streamTake (fun i => f (i + 1)) sf.content.length) st).isSome := by
      intro ev hev
      simp only [copy_fd]
      rw [fstatStep_notFail hev hl]
      apply copyLoop_terminates
      · intro e he
        obtain ⟨i, hi⟩ := streamTake_mem he
        rw [hi]
        exact hf (i + 1)
      · rw [streamTake_length]
      · intro sf' hsf'
        have : sf = sf' := Option.some.inj (hl.symm.trans hsf')
        subst this
        omega
    cases hev : f 0 with
    | fail e => simp [copy_fd, fstatStep]
    | ok => exact hstep _ rfl
    | sent n => exact hstep _ rfl
    | clobber e => exact hstep _ rfl
    | ret r0 e0 => exact hstep _ rfl

end LinkFallback

namespace LinkFallback

/-! ### Characterization of the move-semantics fallback -/

/-- Every determined run of `fallback_move_at` either succeeds having
moved the source's content to the destination (two status queries
performed; a fresh destination carries the source's masked mode), or
fails leaving the source entry untouched. -/
theorem fallback_move_at_cases {oldk newk : Key} {sf : File}
    {evs : List Ev} {st st' : St} {code : Int} {evs' : List Ev}
    (hne : oldk ≠ newk)
    (hsrc : lookupFs st.fs oldk = some sf)
    (hrun : fallback_move_at oldk newk evs st = some (code, st', evs')) :
    (code = 0 ∧ lookupFs st'.fs oldk = none ∧
      (∃ g, lookupFs st'.fs newk = some g ∧ g.content = sf.content) ∧
      st'.fstats = st.fstats + 2 ∧
      (lookupFs st.fs newk = none →
        lookupFs st'.fs newk = some ⟨sf.content, sf.mode &&& 0o777⟩)) ∨
    (code = -1 ∧ lookupFs st'.fs oldk = some sf) := by
  cases evs with
  | nil => simp [fallback_move_at] at hrun
  | cons ev1 t1 =>
    simp only [fallback_move_at] at hrun
    rcases h1 : openReadStep ev1 oldk st with ⟨b1, st1⟩
    rw [h1] at hrun
    cases b1 with
    | false =>
      simp only [Option.some.injEq, Prod.mk.injEq] at hrun
      obtain ⟨hc, hst, -⟩ := hrun
      subst hst
      obtain ⟨hfs, -⟩ := openReadStep_false h1
      exact Or.inr ⟨hc.symm, by rw [hfs]; exact hsrc⟩
    | true =>
      obtain ⟨hst1, -⟩ := openReadStep_true h1
      rw [hst1] at hrun
      simp only at hrun
      cases t1 with
      | nil => simp at hrun
      | cons ev2 t2 =>
        simp only at hrun
        rcases h2 : fstatStep ev2 oldk st with ⟨r2, st2⟩
        rw [h2] at hrun
        cases r2 with
        | none =>
          simp only at hrun
          obtain ⟨hc, hfs2, -, -⟩ := closeFail_inv hrun
          obtain ⟨hfs, -⟩ := fstatStep_none h2
          exact Or.inr ⟨hc, by rw [hfs2, hfs]; exact hsrc⟩
        | some p =>
          obtain ⟨sz, md⟩ := p
          obtain ⟨hst2, f, hlf, -, hmd⟩ := fstatStep_some h2
          have hfe : sf = f := Option.some.inj (hsrc.symm.trans hlf)
          subst hfe
          subst hmd
          subst hst2
          simp only at hrun
          cases t2 with
          | nil => simp at hrun
          | cons ev3 t3 =>
            simp only at hrun
            rcases h3 : unlinkStep ev3 newk { st with fstats := st.fstats + 1 }
              with ⟨ok3, st3⟩
            rw [h3] at hrun
            simp only at hrun
            by_cases hcnd : ok3 = false ∧ st3.errno ≠ ENOENT
            · rw [if_pos hcnd] at hrun
              obtain ⟨hc, hfs3, -, -⟩ := closeFail_inv hrun
              have h3f := h3
              rw [hcnd.1] at h3f
              obtain ⟨hfs, -⟩ := unlinkStep_false h3f
              exact Or.inr ⟨hc, by rw [hfs3, hfs]; exact hsrc⟩
            · rw [if_neg hcnd] at hrun
              have hfacts : lookupFs st3.fs oldk = some sf ∧
                  st3.fstats = st.fstats + 1 ∧
                  (lookupFs st.fs newk = none → lookupFs st3.fs newk = none) := by
                cases ok3 with
                | false =>
                  obtain ⟨hfs, hfst⟩ := unlinkStep_false h3
                  exact ⟨by rw [hfs]; exact hsrc, by rw [hfst],
                    fun hn => by rw [hfs]; exact hn⟩
                | true =>
                  have hst3 := unlinkStep_true h3
                  subst hst3
                  refine ⟨?_, rfl, fun hn => ?_⟩
                  · rw [lookupFs_eraseFs_ne _ _ _ hne]
                    exact hsrc
                  · exact lookupFs_eraseFs_self _ _
              obtain ⟨hold3, hfst3, hnew3⟩ := hfacts
              cases t3 with
              | nil => simp at hrun
              | cons ev4 t4 =>
                simp only at hrun
                rcases h4 : openTruncStep ev4 newk (sf.mode &&& 0o777) st3
                  with ⟨b4, st4⟩
                rw [h4] at hrun
                cases b4 with
                | false =>
                  simp only at hrun
                  obtain ⟨hc, hfs4, -, -⟩ := closeFail_inv hrun
                  obtain ⟨hfs, -⟩ := openTruncStep_false h4
                  exact Or.inr ⟨hc, by rw [hfs4, hfs]; exact hold3⟩
                | true =>
                  obtain ⟨g4, hst4, hg4c, hg4n⟩ := openTruncStep_true h4
                  subst hst4
                  simp only at hrun
                  have hold4 : lookupFs (setFs st3.fs newk g4) oldk = some sf := by
                    rw [lookupFs_setFs_ne _ _ _ _ hne]
                    exact hold3
                  have hdst4 : lookupFs (setFs st3.fs newk g4) newk = some g4 :=
                    lookupFs_setFs_self _ _ _
                  rcases h5 : copy_fd ⟨oldk, 0⟩ ⟨newk, 0⟩ t4
                      { st3 with fs := setFs st3.fs newk g4 }
                    with _ | ⟨res, st5, t5⟩
                  · rw [h5] at hrun
                    simp at hrun
                  · rw [h5] at hrun
                    simp only at hrun
                    obtain ⟨hfr5, hfst5, hcode5⟩ := copy_fd_frame h5
                    have hold5 : lookupFs st5.fs oldk = some sf :=
                      (hfr5 oldk hne).trans hold4
                    cases t5 with
                    | nil => simp at hrun
                    | cons c1 t6 =>
                      simp only at hrun
                      cases t6 with
                      | nil => simp at hrun
                      | cons c2 t7 =>
                        simp only at hrun
                        rcases hcode5 with hres | hres <;> subst hres
                        · -- copy succeeded: proceed to the final unlink
                          rw [if_neg (by decide : ¬((0 : Int) ≠ 0))] at hrun
                          have hst5 := copy_fd_success hne hold4 hdst4 hg4c h5
                          have hf5 : st5.fstats = st3.fstats + 1 := by rw [hst5]
                          have hl5new : lookupFs st5.fs newk =
                              some ⟨sf.content, g4.mode⟩ := by
                            rw [hst5]
                            simp only
                            rw [setFs_setFs_self]
                            exact lookupFs_setFs_self _ _ _
                          cases t7 with
                          | nil => simp at hrun
                          | cons ev7 t8 =>
                            simp only at hrun
                            rcases h7 : unlinkStep ev7 oldk
                                (closeStep c2 (closeStep c1 st5)) with ⟨ok7, st7⟩
                            rw [h7] at hrun
                            cases ok7 with
                            | false =>
                              simp only [Option.some.injEq, Prod.mk.injEq] at hrun
                              obtain ⟨hc, hst, -⟩ := hrun
                              subst hst
                              obtain ⟨hfs7, -⟩ := unlinkStep_false h7
                              refine Or.inr ⟨hc.symm, ?_⟩
                              rw [hfs7, closeStep_fs, closeStep_fs]
                              exact hold5
                            | true =>
                              have hst7 := unlinkStep_true h7
                              subst hst7
                              simp only [Option.some.injEq, Prod.mk.injEq] at hrun
                              obtain ⟨hc, hst, -⟩ := hrun
                              subst hst
                              refine Or.inl ⟨hc.symm, ?_, ?_, ?_, ?_⟩
                              · exact lookupFs_eraseFs_self _ _
                              · refine ⟨⟨sf.content, g4.mode⟩, ?_, rfl⟩
                                show lookupFs
                                  (eraseFs (closeStep c2 (closeStep c1 st5)).fs oldk)
                                  newk = _
                                rw [lookupFs_eraseFs_ne _ _ _ (Ne.symm hne),
                                  closeStep_fs, closeStep_fs]
                                exact hl5new
                              · show (closeStep c2 (closeStep c1 st5)).fstats =
                                  st.fstats + 2
                                rw [closeStep_fstats, closeStep_fstats]
                                omega
                              · intro hnew
                                have hg4 : g4 = ⟨[], sf.mode &&& 0o777⟩ :=
                                  hg4n (hnew3 hnew)
                                show lookupFs
                                  (eraseFs (closeStep c2 (closeStep c1 st5)).fs oldk)
                                  newk = _
                                rw [lookupFs_eraseFs_ne _ _ _ (Ne.symm hne),
                                  closeStep_fs, closeStep_fs, hl5new, hg4]
                        · -- copy failed
                          rw [if_pos (by decide : ((-1 : Int) ≠ 0))] at hrun
                          simp only [Option.some.injEq, Prod.mk.injEq] at hrun
                          obtain ⟨hc, hst, -⟩ := hrun
                          subst hst
                          refine Or.inr ⟨hc.symm, ?_⟩
                          show lookupFs (closeStep c2 (closeStep c1 st5)).fs oldk =
                            some sf
                          rw [closeStep_fs, closeStep_fs]
                          exact hold5

end LinkFallback

namespace LinkFallback

/-! ### Characterization of the copy-semantics fallback -/

/-- Every determined run of `fallback_copy_from_path` either succeeds
having created the destination with the source's content and masked mode
(two status queries performed, source untouched), or fails leaving the
source entry untouched. -/
theorem fallback_copy_from_path_cases {oldk newk : Key} {sf : File}
    {evs : List Ev} {st st' : St} {code : Int} {evs' : List Ev}
    (hne : oldk ≠ newk)
    (hsrc : lookupFs st.fs oldk = some sf)
    (hrun : fallback_copy_from_path oldk newk evs st = some (code, st', evs')) :
    (code = 0 ∧ lookupFs st'.fs oldk = some sf ∧
      lookupFs st'.fs newk = some ⟨sf.content, sf.mode &&& 0o777⟩ ∧
      st'.fstats = st.fstats + 2) ∨
    (code = -1 ∧ lookupFs st'.fs oldk = some sf) := by
  cases evs with
  | nil => simp [fallback_copy_from_path] at hrun
  | cons ev1 t1 =>
    simp only [fallback_copy_from_path] at hrun
    rcases h1 : openReadStep ev1 oldk st with ⟨b1, st1⟩
    rw [h1] at hrun
    cases b1 with
    | false =>
      simp only [Option.some.injEq, Prod.mk.injEq] at hrun
      obtain ⟨hc, hst, -⟩ := hrun
      subst hst
      obtain ⟨hfs, -⟩ := openReadStep_false h1
      exact Or.inr ⟨hc.symm, by rw [hfs]; exact hsrc⟩
    | true =>
      obtain ⟨hst1, -⟩ := openReadStep_true h1
      rw [hst1] at hrun
      simp only at hrun
      cases t1 with
      | nil => simp at hrun
      | cons ev2 t2 =>
        simp only at hrun
        rcases h2 : fstatStep ev2 oldk st with ⟨r2, st2⟩
        rw [h2] at hrun
        cases r2 with
        | none =>
          simp only at hrun
          obtain ⟨hc, hfs2, -, -⟩ := closeFail_inv hrun
          obtain ⟨hfs, -⟩ := fstatStep_none h2
          exact Or.inr ⟨hc, by rw [hfs2, hfs]; exact hsrc⟩
        | some p =>
          obtain ⟨sz, md⟩ := p
          obtain ⟨hst2, f, hlf, -, hmd⟩ := fstatStep_some h2
          have hfe : sf = f := Option.some.inj (hsrc.symm.trans hlf)
          subst hfe
          subst hmd
          subst hst2
          simp only at hrun
          cases t2 with
          | nil => simp at hrun
          | cons ev3 t3 =>
            simp only at hrun
            rcases h3 : openExclStep ev3 newk (sf.mode &&& 0o777)
                { st with fstats := st.fstats + 1 } with ⟨b3, st3⟩
            rw [h3] at hrun
            cases b3 with
            | false =>
              simp only at hrun
              obtain ⟨hc, hfs3, -, -⟩ := closeFail_inv hrun
              obtain ⟨hfs, -⟩ := openExclStep_false h3
              exact Or.inr ⟨hc, by rw [hfs3, hfs]; exact hsrc⟩
            | true =>
              obtain ⟨-, hst3⟩ := openExclStep_true h3
              subst hst3
              simp only at hrun
              have hold3 : lookupFs
                  (setFs st.fs newk (⟨[], sf.mode &&& 0o777⟩ : File)) oldk = some sf := by
                rw [lookupFs_setFs_ne _ _ _ _ hne]
                exact hsrc
              have hdst3 : lookupFs
                  (setFs st.fs newk (⟨[], sf.mode &&& 0o777⟩ : File)) newk =
                  some ⟨[], sf.mode &&& 0o777⟩ :=
                lookupFs_setFs_self _ _ _
              rcases h4 : copy_fd ⟨oldk, 0⟩ ⟨newk, 0⟩ t3
                  { st with fstats := st.fstats + 1, fs := setFs st.fs newk ⟨[], sf.mode &&& 0o777⟩ }
                with _ | ⟨res, st4, t4⟩
              · rw [h4] at hrun
                simp at hrun
              · rw [h4] at hrun
                simp only at hrun
                obtain ⟨hfr4, hfst4, hcode4⟩ := copy_fd_frame h4
                have hold4 : lookupFs st4.fs oldk = some sf :=
                  (hfr4 oldk hne).trans hold3
                cases t4 with
                | nil => simp at hrun
                | cons c1 t5 =>
                  simp only at hrun
                  cases t5 with
                  | nil => simp at hrun
                  | cons c2 t6 =>
                    simp only at hrun
                    rcases hcode4 with hres | hres <;> subst hres
                    · rw [if_neg (by decide : ¬((0 : Int) ≠ 0))] at hrun
                      have hst4 := copy_fd_success hne hold3 hdst3 rfl h4
                      simp only [Option.some.injEq, Prod.mk.injEq] at hrun
                      obtain ⟨hc, hst, -⟩ := hrun
                      subst hst
                      refine Or.inl ⟨hc.symm, ?_, ?_, ?_⟩
                      · show lookupFs (closeStep c2 (closeStep c1 st4)).fs oldk =
                          some sf
                        rw [closeStep_fs, closeStep_fs]
                        exact hold4
                      · show lookupFs (closeStep c2 (closeStep c1 st4)).fs newk = _
                        rw [closeStep_fs, closeStep_fs, hst4]
                        simp only
                        rw [setFs_setFs_self]
                        exact lookupFs_setFs_self _ _ _
                      · show (closeStep c2 (closeStep c1 st4)).fstats = st.fstats + 2
                        rw [closeStep_fstats, closeStep_fstats, hst4]
                    · rw [if_pos (by decide : ((-1 : Int) ≠ 0))] at hrun
                      simp only [Option.some.injEq, Prod.mk.injEq] at hrun
                      obtain ⟨hc, hst, -⟩ := hrun
                      subst hst
                      refine Or.inr ⟨hc.symm, ?_⟩
                      show lookupFs (closeStep c2 (closeStep c1 st4)).fs oldk = some sf
                      rw [closeStep_fs, closeStep_fs]
                      exact hold4

/-- Every determined run of `fallback_copy_from_fd` either succeeds
having created the destination with the full content and masked mode of
the file the caller's descriptor refers to, or fails with the source
entry untouched. -/
theorem fallback_copy_from_fd_cases {srcfd : OpenFd} {newk : Key} {sf : File}
    {evs : List Ev} {st st' : St} {code : Int} {evs' : List Ev}
    (hne : srcfd.key ≠ newk)
    (hsrc : lookupFs st.fs srcfd.key = some sf)
    (hrun : fallback_copy_from_fd srcfd newk evs st = some (code, st', evs')) :
    (code = 0 ∧ lookupFs st'.fs srcfd.key = some sf ∧
      lookupFs st'.fs newk = some ⟨sf.content, sf.mode &&& 0o777⟩ ∧
      st'.fstats = st.fstats + 2) ∨
    (code = -1 ∧ lookupFs st'.fs srcfd.key = some sf) := by
  cases evs with
  | nil => simp [fallback_copy_from_fd] at hrun
  | cons ev0 t0 =>
    simp only [fallback_copy_from_fd] at hrun
    rcases h0 : dupStep ev0 st with ⟨b0, st0⟩
    rw [h0] at hrun
    cases b0 with
    | false =>
      simp only [Option.some.injEq, Prod.mk.injEq] at hrun
      obtain ⟨hc, hst, -⟩ := hrun
      subst hst
      obtain ⟨hfs, -⟩ := dupStep_false h0
      exact Or.inr ⟨hc.symm, by rw [hfs]; exact hsrc⟩
    | true =>
      have hst0 := dupStep_true h0
      rw [hst0] at hrun
      simp only at hrun
      cases t0 with
      | nil => simp at hrun
      | cons ev2 t2 =>
        simp only at hrun
        rcases h2 : fstatStep ev2 srcfd.key st with ⟨r2, st2⟩
        rw [h2] at hrun
        cases r2 with
        | none =>
          simp only at hrun
          obtain ⟨hc, hfs2, -, -⟩ := closeFail_inv hrun
          obtain ⟨hfs, -⟩ := fstatStep_none h2
          exact Or.inr ⟨hc, by rw [hfs2, hfs]; exact hsrc⟩
        | some p =>
          obtain ⟨sz, md⟩ := p
          obtain ⟨hst2, f, hlf, -, hmd⟩ := fstatStep_some h2
          have hfe : sf = f := Option.some.inj (hsrc.symm.trans hlf)
          subst hfe
          subst hmd
          subst hst2
          simp only at hrun
          cases t2 with
          | nil => simp at hrun
          | cons ev3 t3 =>
            simp only at hrun
            rcases h3 : openExclStep ev3 newk (sf.mode &&& 0o777)
                { st with fstats := st.fstats + 1 } with ⟨b3, st3⟩
            rw [h3] at hrun
            cases b3 with
            | false =>
              simp only at hrun
              obtain ⟨hc, hfs3, -, -⟩ := closeFail_inv hrun
              obtain ⟨hfs, -⟩ := openExclStep_false h3
              exact Or.inr ⟨hc, by rw [hfs3, hfs]; exact hsrc⟩
            | true =>
              obtain ⟨-, hst3⟩ := openExclStep_true h3
              subst hst3
              simp only at hrun
              have hold3 : lookupFs
                  (setFs st.fs newk (⟨[], sf.mode &&& 0o777⟩ : File)) srcfd.key =
                  some sf := by
                rw [lookupFs_setFs_ne _ _ _ _ hne]
                exact hsrc
              have hdst3 : lookupFs
                  (setFs st.fs newk (⟨[], sf.mode &&& 0o777⟩ : File)) newk =
                  some ⟨[], sf.mode &&& 0o777⟩ :=
                lookupFs_setFs_self _ _ _
              rcases h4 : copy_fd srcfd ⟨newk, 0⟩ t3
                  { st with fstats := st.fstats + 1, fs := setFs st.fs newk ⟨[], sf.mode &&& 0o777⟩ }
                with _ | ⟨res, st4, t4⟩
              · rw [h4] at hrun
                simp at hrun
              · rw [h4] at hrun
                simp only at hrun
                obtain ⟨hfr4, hfst4, hcode4⟩ := copy_fd_frame h4
                have hold4 : lookupFs st4.fs srcfd.key = some sf :=
                  (hfr4 srcfd.key hne).trans hold3
                cases t4 with
                | nil => simp at hrun
                | cons c1 t5 =>
                  simp only at hrun
                  cases t5 with
                  | nil => simp at hrun
                  | cons c2 t6 =>
                    simp only at hrun
                    rcases hcode4 with hres | hres <;> subst hres
                    · rw [if_neg (by decide : ¬((0 : Int) ≠ 0))] at hrun
                      have hst4 := copy_fd_success hne hold3 hdst3 rfl h4
                      simp only [Option.some.injEq, Prod.mk.injEq] at hrun
                      obtain ⟨hc, hst, -⟩ := hrun
                      subst hst
                      refine Or.inl ⟨hc.symm, ?_, ?_, ?_⟩
                      · show lookupFs (closeStep c2 (closeStep c1 st4)).fs srcfd.key =
                          some sf
                        rw [closeStep_fs, closeStep_fs]
                        exact hold4
                      · show lookupFs (closeStep c2 (closeStep c1 st4)).fs newk = _
                        rw [closeStep_fs, closeStep_fs, hst4]
                        simp only
                        rw [setFs_setFs_self]
                        exact lookupFs_setFs_self _ _ _
                      · show (closeStep c2 (closeStep c1 st4)).fstats = st.fstats + 2
                        rw [closeStep_fstats, closeStep_fstats, hst4]
                    · rw [if_pos (by decide : ((-1 : Int) ≠ 0))] at hrun
                      simp only [Option.some.injEq, Prod.mk.injEq] at hrun
                      obtain ⟨hc, hst, -⟩ := hrun
                      subst hst
                      refine Or.inr ⟨hc.symm, ?_⟩
                      show lookupFs (closeStep c2 (closeStep c1 st4)).fs srcfd.key =
                        some sf
                      rw [closeStep_fs, closeStep_fs]
                      exact hold4

/-- When the destination already exists, the copy-semantics fallback
(with a working open and status query) fails with `EEXIST`, leaving the
whole filesystem unchanged. -/
theorem fallback_copy_eexist {oldk newk : Key} {sf df : File}
    {ev1 ev2 ev3 ev4 : Ev} {evs : List Ev} {st : St}
    (hsrc : lookupFs st.fs oldk = some sf)
    (hdst : lookupFs st.fs newk = some df)
    (h1 : ev1.isFail = false) (h2 : ev2.isFail = false) :
    ∃ stf, fallback_copy_from_path oldk newk (ev1 :: ev2 :: ev3 :: ev4 :: evs) st =
      some (-1, stf, evs) ∧ stf.errno = EEXIST ∧ stf.fs = st.fs := by
  simp only [fallback_copy_from_path]
  rw [openReadStep_notFail h1 hsrc]
  simp only
  rw [fstatStep_notFail h2 hsrc]
  simp only
  rw [@openExclStep_occupied ev3 newk (sf.mode &&& 0o777)
    { st with fstats := st.fstats + 1 } df hdst]
  simp only [closeFail]
  refine ⟨_, rfl, rfl, ?_⟩
  rw [closeStep_fs]

end LinkFallback

namespace LinkFallback

/-! ### Position-independence of the descriptor-direct copy path -/

theorem sendfileStep_congr {srcfd srcfd' dstfd : OpenFd}
    (h : srcfd.key = srcfd'.key) (ev : Ev) (offset count : Nat) (st : St) :
    sendfileStep ev srcfd dstfd offset count st =
      sendfileStep ev srcfd' dstfd offset count st := by
  unfold sendfileStep
  rw [h]

theorem copyLoop_congr {srcfd srcfd' dstfd : OpenFd}
    (h : srcfd.key = srcfd'.key) :
    ∀ (r offset : Nat) (evs : List Ev) (st : St),
      copyLoop srcfd dstfd r offset evs st =
        copyLoop srcfd' dstfd r offset evs st := by
  intro r offset evs
  induction evs generalizing r offset with
  | nil =>
    intro st
    cases r <;> rfl
  | cons ev rest ih =>
    intro st
    cases r with
    | zero => rfl
    | succ n =>
      simp only [copyLoop]
      rw [sendfileStep_congr h]
      rcases hs : sendfileStep ev srcfd' dstfd offset (n + 1) st with ⟨mr, st1⟩
      cases mr with
      | none => rfl
      | some m => exact ih _ _ _

theorem copy_fd_congr {srcfd srcfd' dstfd : OpenFd}
    (h : srcfd.key = srcfd'.key) (evs : List Ev) (st : St) :
    copy_fd srcfd dstfd evs st = copy_fd srcfd' dstfd evs st := by
  cases evs with
  | nil => rfl
  | cons ev rest =>
    simp only [copy_fd]
    rw [h]
    rcases hf : fstatStep ev srcfd'.key st with ⟨ro, st1⟩
    cases ro with
    | none => rfl
    | some p =>
      obtain ⟨sz, md⟩ := p
      exact copyLoop_congr h sz 0 rest st1

theorem fallback_copy_from_fd_congr {srcfd srcfd2 : OpenFd} {newk : Key}
    (h : srcfd.key = srcfd2.key) (evs : List Ev) (st : St) :
    fallback_copy_from_fd srcfd newk evs st =
      fallback_copy_from_fd srcfd2 newk evs st := by
  cases evs with
  | nil => rfl
  | cons ev0 t0 =>
    simp only [fallback_copy_from_fd]
    rw [h]
    rcases h0 : dupStep ev0 st with ⟨b0, st0⟩
    cases b0 with
    | false => rfl
    | true =>
      simp only
      cases t0 with
      | nil => rfl
      | cons ev2 t2 =>
        simp only
        rcases h2 : fstatStep ev2 srcfd2.key st0 with ⟨r2, st2⟩
        cases r2 with
        | none => rfl
        | some p =>
          obtain ⟨sz, md⟩ := p
          simp only
          cases t2 with
          | nil => rfl
          | cons ev3 t3 =>
            simp only
            rcases h3 : openExclStep ev3 newk (md &&& 0o777) st2 with ⟨b3, st3⟩
            cases b3 with
            | false => rfl
            | true =>
              simp only
              rw [copy_fd_congr h]

end LinkFallback

namespace LinkFallback

/-! ### The claims -/

/-- C1: whenever the genuine implementation of any overridden entry point
(`link`, `linkat`, `rename`, `renameat`, `renameat2`) returns success or
fails with an error other than `EXDEV`, the entry point returns the
genuine result with the genuine error code, consumes nothing further
from the trace, and changes no state — no fallback is performed. -/
theorem C1_passthrough (oldp newp : String) (oldfd : OpenFd)
    (od : Nat) (opo : Option String) (nd : Nat) (np : String) (fl fl2 : Nat)
    (r : Int) (e : Nat) (evs : List Ev) (st : St)
    (h : r = 0 ∨ e ≠ EXDEV) :
    LinkFallback.link oldp newp (Ev.ret r e :: evs) st =
      some (r, { st with errno := e }, evs) ∧
    linkat oldfd od opo nd np fl (Ev.ret r e :: evs) st =
      some (r, { st with errno := e }, evs) ∧
    rename oldp newp (Ev.ret r e :: evs) st =
      some (r, { st with errno := e }, evs) ∧
    renameat od oldp nd np (Ev.ret r e :: evs) st =
      some (r, { st with errno := e }, evs) ∧
    renameat2 true od oldp nd np fl2 (Ev.ret r e :: evs) st =
      some (r, { st with errno := e }, evs) := by
  refine ⟨?_, ?_, ?_, ?_, ?_⟩
  · simp only [link, genuineStep]
    rw [if_pos h]
  · simp only [linkat, genuineStep]
    rw [if_pos h]
  · simp only [rename, genuineStep]
    rw [if_pos h]
  · simp only [renameat, genuineStep]
    rw [if_pos h]
  · simp only [renameat2, genuineStep]
    rw [if_neg (by decide : ¬(true = false))]
    rw [if_pos h]

/-- Witness for C1 at a concrete non-`EXDEV` failure. -/
theorem C1_passthrough_witness :
    ((-1 : Int) = 0 ∨ (2 : Nat) ≠ EXDEV) ∧
    LinkFallback.link ("a") "b" [Ev.ret (-1) 2] wst0 =
      some (-1, { wst0 with errno := 2 }, []) ∧
    renameat2 true 1 "a" 2 "b" 5 [Ev.ret (-1) 2] wst0 =
      some (-1, { wst0 with errno := 2 }, []) := by
  have h := C1_passthrough ("a") "b" wfdA 1 (some ("a")) 2 "b" 0 5 (-1) 2 [] wst0
    (by decide)
  exact ⟨by decide, h.1, h.2.2.2.2⟩

/-- C5 (amended scope of C5 is the claim as stated — it holds): when
`renameat2`'s genuine implementation exists and fails with `EXDEV`,
non-zero flags are returned unchanged with no fallback, and the
move-semantics fallback runs exactly when the flags are zero. -/
theorem C5_flagged_rename_no_fallback (od : Nat) (op : String) (nd : Nat)
    (np : String) (flags : Nat) (r : Int) (evs : List Ev) (st : St)
    (hr : r ≠ 0) (hf : flags ≠ 0) :
    renameat2 true od op nd np flags (Ev.ret r EXDEV :: evs) st =
      some (r, { st with errno := EXDEV }, evs) ∧
    renameat2 true od op nd np 0 (Ev.ret r EXDEV :: evs) st =
      fallback_move_at (od, op) (nd, np) evs { st with errno := EXDEV } := by
  constructor
  · simp only [renameat2, genuineStep]
    rw [if_neg (by decide : ¬(true = false))]
    rw [if_neg (show ¬(r = 0 ∨
        ({ st with errno := EXDEV } : St).errno ≠ EXDEV) from
      fun hor => hor.elim hr (fun hne => hne rfl))]
    rw [if_pos hf]
  · simp only [renameat2, genuineStep]
    rw [if_neg (by decide : ¬(true = false))]
    rw [if_neg (show ¬(r = 0 ∨
        ({ st with errno := EXDEV } : St).errno ≠ EXDEV) from
      fun hor => hor.elim hr (fun hne => hne rfl))]
    rw [if_neg (by decide : ¬((0 : Nat) ≠ 0))]

/-- Witness for C5 at a concrete cross-device failure with flag 1. -/
theorem C5_flagged_rename_no_fallback_witness :
    ((-1 : Int) ≠ 0) ∧ ((1 : Nat) ≠ 0) ∧
    renameat2 true 1 "a" 2 "b" 1 [Ev.ret (-1) EXDEV] wst0 =
      some (-1, { wst0 with errno := EXDEV }, []) := by
  have h := C5_flagged_rename_no_fallback 1 "a" 2 "b" 1 (-1) [] wst0
    (by decide) (by decide)
  exact ⟨by decide, by decide, h.1⟩

/-- C6: on failing exits of the fallback functions, the caller observes
the error code of the specific failing step (status query, destination
create, destination removal, copy transfer, source removal), for every
injected error code and regardless of how the subsequent closes touch
`errno`: the code saves the error state before the closes and restores
it afterward. -/
theorem C6_errno_restored (e : Nat) (c1 c2 : Ev) :
    runErrno (fallback_copy_from_path wkA wkB
      [Ev.ok, Ev.fail e, c1] wst0) = some e ∧
    runCode (fallback_copy_from_path wkA wkB
      [Ev.ok, Ev.fail e, c1] wst0) = some (-1) ∧
    runErrno (fallback_copy_from_path wkA wkB
      [Ev.ok, Ev.ok, Ev.fail e, c1] wst0) = some e ∧
    runErrno (fallback_copy_from_path wkA wkB
      [Ev.ok, Ev.ok, Ev.ok, Ev.ok, Ev.fail e, c1, c2] wst0) = some e ∧
    runErrno (fallback_move_at wkA wkB
      [Ev.ok, Ev.ok, Ev.fail 13, c1] wstB) = some 13 ∧
    runErrno (fallback_move_at wkA wkB
      [Ev.ok, Ev.ok, Ev.ok, Ev.ok, Ev.ok, Ev.fail e, c1, c2] wst0) = some e ∧
    runErrno (fallback_move_at wkA wkB
      [Ev.ok, Ev.ok, Ev.ok, Ev.ok, Ev.ok, Ev.ok, Ev.clobber 99, Ev.clobber 98,
        Ev.fail e] wst0) = some e ∧
    runCode (fallback_move_at wkA wkB
      [Ev.ok, Ev.ok, Ev.ok, Ev.ok, Ev.ok, Ev.ok, Ev.clobber 99, Ev.clobber 98,
        Ev.fail e] wst0) = some (-1) :=
  ⟨rfl, rfl, rfl, rfl, rfl, rfl, rfl, rfl⟩

/-- C7 counterexample: with a null genuine `renameat2` and zero flags the
entry point does not signal "operation unsupported" — it delegates to
`renameat`, which here succeeds. -/
theorem C7_counterexample :
    renameat2 false 1 "a" 2 "b" 0 [Ev.ret 0 0] wst0 = some (0, wst0, []) ∧
    runErrno (renameat2 false 1 "a" 2 "b" 0 [Ev.ret 0 0] wst0) ≠ some ENOSYS ∧
    runCode (renameat2 false 1 "a" 2 "b" 0 [Ev.ret 0 0] wst0) ≠ some (-1) := by
  refine ⟨?_, by decide, by decide⟩
  decide

/-- C7 amended: when symbol resolution for `renameat2` yields a null
address, the null address is never invoked: with non-zero flags the call
signals "operation unsupported" (`ENOSYS`), and with zero flags it
delegates to the interposed `renameat`. -/
theorem C7_null_resolution_amended (od : Nat) (op : String) (nd : Nat)
    (np : String) (flags : Nat) (evs : List Ev) (st : St) :
    (flags ≠ 0 → renameat2 false od op nd np flags evs st =
      some (-1, { st with errno := ENOSYS }, evs)) ∧
    renameat2 false od op nd np 0 evs st = renameat od op nd np evs st := by
  constructor
  · intro hf
    simp only [renameat2, if_true]
    rw [if_neg hf]
  · simp [renameat2]

/-- Witness for the amended C7 with flag 1. -/
theorem C7_null_resolution_amended_witness :
    ((1 : Nat) ≠ 0) ∧
    renameat2 false 1 "a" 2 "b" 1 [] wst0 =
      some (-1, { wst0 with errno := ENOSYS }, []) :=
  ⟨by decide, (C7_null_resolution_amended 1 "a" 2 "b" 1 [] wst0).1 (by decide)⟩

/-- C9 counterexample: when the first `dlsym` query returns the null
address, the second invocation queries the loader again — the result of
the first query is not cached unconditionally. -/
theorem C9_counterexample :
    runInvocations none [none, some 5] = [true, true] ∧
    runInvocations none [none, some 5] ≠ [true, false] := by
  exact ⟨rfl, by decide⟩

/-- C9 amended: a non-null resolution result is cached for the lifetime
of the process and no later invocation queries the loader again; a null
result is not cached, so the next invocation re-queries exactly as a
first invocation would. -/
theorem C9_memoization_amended :
    (∀ (a : Nat) (ds : List (Option Nat)),
      runInvocations (some a) ds = List.replicate ds.length false) ∧
    (∀ (a : Nat) (ds : List (Option Nat)),
      runInvocations none (some a :: ds) =
        true :: List.replicate ds.length false) ∧
    (∀ ds : List (Option Nat),
      runInvocations none (none :: ds) = true :: runInvocations none ds) := by
  have hsome : ∀ (a : Nat) (ds : List (Option Nat)),
      runInvocations (some a) ds = List.replicate ds.length false := by
    intro a ds
    induction ds with
    | nil => rfl
    | cons d rest ih =>
      simp only [runInvocations, lookupOnce, List.length_cons, List.replicate_succ]
      exact congrArg (false :: ·) ih
  refine ⟨hsome, fun a ds => ?_, fun ds => rfl⟩
  simp only [runInvocations, lookupOnce, List.length_cons]
  exact congrArg (true :: ·) (hsome a ds)

end LinkFallback

namespace LinkFallback

theorem streamTake_zeroStream (n : Nat) :
    streamTake zeroStream n = List.replicate n (Ev.sent 0) := by
  induction n with
  | zero => rfl
  | succ k ih =>
    show Ev.sent 0 :: streamTake zeroStream k = _
    rw [List.replicate_succ]
    exact congrArg (Ev.sent 0 :: ·) ih

theorem copyLoop_zero_none (n : Nat) (st : St) (r offset : Nat) (sf df : File)
    (h1 : lookupFs st.fs wfdA.key = some sf)
    (h2 : lookupFs st.fs wfdB.key = some df) :
    copyLoop wfdA wfdB (r + 1) offset (List.replicate n (Ev.sent 0)) st = none := by
  induction n with
  | zero => rfl
  | succ k ih =>
    rw [List.replicate_succ, copyLoop_sent_zero h1 h2]
    exact ih

/-- C4 counterexample: against the event stream whose every transfer
moves zero bytes without an error, the byte-range copier never
terminates — no finite prefix of that stream determines its outcome. -/
theorem C4_counterexample : ¬ copyTerminates wfdA wfdB zeroStream wstB := by
  rintro ⟨n, hn⟩
  rw [streamTake_zeroStream] at hn
  cases n with
  | zero => exact absurd hn (by decide)
  | succ k =>
    rw [List.replicate_succ] at hn
    rw [show copy_fd wfdA wfdB (Ev.sent 0 :: List.replicate k (Ev.sent 0)) wstB =
        copyLoop wfdA wfdB 2 0 (List.replicate k (Ev.sent 0))
          { wstB with fstats := 1 } from rfl] at hn
    rw [show copyLoop wfdA wfdB 2 0 (List.replicate k (Ev.sent 0))
          { wstB with fstats := 1 } = none from
      copyLoop_zero_none k _ 1 0 wfA wfB (by decide) (by decide)] at hn
    exact absurd hn (by decide)

/-- C4 amended: the byte-range copier terminates for every sequence of
transfer results in which each transfer errors or moves at least one
byte; an error return aborts the loop and propagates the OS error code
unchanged; and a zero-byte transfer without an error is not a failure —
the loop simply continues (so the remaining count is reduced only by the
bytes actually moved, and an endless run of zero-byte transfers loops
forever). -/
theorem C4_copier_amended :
    (∀ (srcfd dstfd : OpenFd) (f : Nat → Ev) (st : St),
      NoZeroSend f → copyTerminates srcfd dstfd f st) ∧
    (∀ (srcfd dstfd : OpenFd) (r offset e : Nat) (evs : List Ev) (st : St),
      copyLoop srcfd dstfd (r + 1) offset (Ev.fail e :: evs) st =
        some (-1, { st with errno := e }, evs)) ∧
    (∀ (srcfd dstfd : OpenFd) (r offset : Nat) (evs : List Ev) (st : St)
      (sf df : File),
      lookupFs st.fs srcfd.key = some sf → lookupFs st.fs dstfd.key = some df →
      copyLoop srcfd dstfd (r + 1) offset (Ev.sent 0 :: evs) st =
        copyLoop srcfd dstfd (r + 1) offset evs st) :=
  ⟨fun _ _ _ _ hf => copy_fd_terminates hf,
   fun srcfd dstfd r offset e evs st => copyLoop_fail_head srcfd dstfd r offset e evs st,
   fun _ _ _ _ _ _ _ _ h1 h2 => copyLoop_sent_zero h1 h2⟩

/-- Witness for the amended C4. -/
theorem C4_copier_amended_witness :
    NoZeroSend okStream ∧ copyTerminates wfdA wfdB okStream wst0 ∧
    lookupFs wstB.fs wfdA.key = some wfA ∧
    lookupFs wstB.fs wfdB.key = some wfB ∧
    copyLoop wfdA wfdB 1 0 [Ev.sent 0, Ev.ok] wstB =
      copyLoop wfdA wfdB 1 0 [Ev.ok] wstB :=
  ⟨fun _ => (by decide : Ev.ok ≠ Ev.sent 0),
   C4_copier_amended.1 wfdA wfdB okStream wst0 (fun _ => (by decide : Ev.ok ≠ Ev.sent 0)),
   by decide, by decide,
   C4_copier_amended.2.2 wfdA wfdB 0 0 [Ev.ok] wstB wfA wfB (by decide) (by decide)⟩

/-- C2: for the cross-device rename fallback with distinct source and
destination, a successful run leaves the destination holding the
source's former content (with the source's masked permission bits when
the destination did not previously exist — it is created, any
pre-existing destination having been removed first with a "does not
exist" failure tolerated) and the source no longer exists; a failing run
leaves the source entry unchanged, so the source is removed only if the
copy succeeded. -/
theorem C2_move_semantics (oldk newk : Key) (sf : File) (st : St)
    (hne : oldk ≠ newk) (hsrc : lookupFs st.fs oldk = some sf) :
    (∀ (evs : List Ev) (st' : St) (evs' : List Ev),
      fallback_move_at oldk newk evs st = some (0, st', evs') →
      (∃ g, lookupFs st'.fs newk = some g ∧ g.content = sf.content) ∧
      lookupFs st'.fs oldk = none ∧
      (lookupFs st.fs newk = none →
        lookupFs st'.fs newk = some ⟨sf.content, sf.mode &&& 0o777⟩)) ∧
    (∀ (evs : List Ev) (st' : St) (evs' : List Ev),
      fallback_move_at oldk newk evs st = some (-1, st', evs') →
      lookupFs st'.fs oldk = lookupFs st.fs oldk) := by
  constructor
  · intro evs st' evs' hrun
    rcases fallback_move_at_cases hne hsrc hrun with
      ⟨-, hold, hex, -, hmode⟩ | ⟨hc, -⟩
    · exact ⟨hex, hold, hmode⟩
    · exact absurd hc (by decide)
  · intro evs st' evs' hrun
    rcases fallback_move_at_cases hne hsrc hrun with ⟨hc, -⟩ | ⟨-, hold⟩
    · exact absurd hc (by decide)
    · rw [hold, hsrc]

/-- Witness for C2: a concrete successful move with an absent
destination. -/
theorem C2_move_semantics_witness :
    wkA ≠ wkB ∧ lookupFs wst0.fs wkA = some wfA ∧
    lookupFs ((⟨[(wkB, ⟨[7, 8], 0o644⟩)], ENOENT, 2⟩ : St)).fs wkA = none ∧
    lookupFs ((⟨[(wkB, ⟨[7, 8], 0o644⟩)], ENOENT, 2⟩ : St)).fs wkB =
      some ⟨wfA.content, wfA.mode &&& 0o777⟩ := by
  have h := (C2_move_semantics wkA wkB wfA wst0 (by decide) (by decide)).1
    [Ev.ok, Ev.ok, Ev.ok, Ev.ok, Ev.ok, Ev.ok, Ev.ok, Ev.ok, Ev.ok]
    ⟨[(wkB, ⟨[7, 8], 0o644⟩)], ENOENT, 2⟩ [] (by decide)
  exact ⟨by decide, by decide, h.2.1, h.2.2 (by decide)⟩

/-- C3: for the cross-device link fallback, if the destination already
exists the fallback fails with "already exists" and the filesystem —
in particular the destination's prior content — is unmodified; if it
succeeds, the destination was created exclusively with the source's
content and the source's permission bits masked to `0o777`, the source
untouched. -/
theorem C3_link_fallback_excl (oldk newk : Key) (sf : File) (st : St)
    (hne : oldk ≠ newk) (hsrc : lookupFs st.fs oldk = some sf) :
    (∀ (df : File) (ev1 ev2 ev3 ev4 : Ev) (evs : List Ev),
      lookupFs st.fs newk = some df → ev1.isFail = false → ev2.isFail = false →
      ∃ stf, fallback_copy_from_path oldk newk (ev1 :: ev2 :: ev3 :: ev4 :: evs) st =
        some (-1, stf, evs) ∧ stf.errno = EEXIST ∧ stf.fs = st.fs) ∧
    (∀ (evs : List Ev) (st' : St) (evs' : List Ev),
      fallback_copy_from_path oldk newk evs st = some (0, st', evs') →
      lookupFs st'.fs newk = some ⟨sf.content, sf.mode &&& 0o777⟩ ∧
      lookupFs st'.fs oldk = some sf) := by
  constructor
  · intro df ev1 ev2 ev3 ev4 evs hdst h1 h2
    exact fallback_copy_eexist hsrc hdst h1 h2
  · intro evs st' evs' hrun
    rcases fallback_copy_from_path_cases hne hsrc hrun with
      ⟨-, hold, hnew, -⟩ | ⟨hc, -⟩
    · exact ⟨hnew, hold⟩
    · exact absurd hc (by decide)

/-- Witness for C3: a concrete occupied destination. -/
theorem C3_link_fallback_excl_witness :
    wkA ≠ wkB ∧ lookupFs wstB.fs wkA = some wfA ∧
    runCode (fallback_copy_from_path wkA wkB
      [Ev.ok, Ev.ok, Ev.ok, Ev.ok] wstB) = some (-1) ∧
    runErrno (fallback_copy_from_path wkA wkB
      [Ev.ok, Ev.ok, Ev.ok, Ev.ok] wstB) = some EEXIST ∧
    runFs (fallback_copy_from_path wkA wkB
      [Ev.ok, Ev.ok, Ev.ok, Ev.ok] wstB) = some wstB.fs := by
  obtain ⟨stf, hr, he, hf⟩ := (C3_link_fallback_excl wkA wkB wfA wstB
    (by decide) (by decide)).1 wfB Ev.ok Ev.ok Ev.ok Ev.ok [] (by decide) rfl rfl
  refine ⟨by decide, by decide, ?_, ?_, ?_⟩ <;>
    rw [hr] <;> simp [runCode, runErrno, runFs, he, hf]

/-- C8 counterexample: a successful copy-fallback run performs two
status queries, not one. -/
theorem C8_counterexample :
    runCode (fallback_copy_from_path wkA wkB
      [Ev.ok, Ev.ok, Ev.ok, Ev.ok, Ev.ok, Ev.ok, Ev.ok] wst0) = some 0 ∧
    runFstats (fallback_copy_from_path wkA wkB
      [Ev.ok, Ev.ok, Ev.ok, Ev.ok, Ev.ok, Ev.ok, Ev.ok] wst0) = some 2 ∧
    (2 : Nat) ≠ 1 :=
  ⟨rfl, rfl, by decide⟩

/-- C8 amended: each successful fallback run performs exactly two status
queries — one immediately after opening the source, whose permission
bits (masked) set the destination's initial permissions, and a second
performed by the byte-range copier itself, which sizes the copy loop. -/
theorem C8_two_status_queries (oldk newk : Key) (sf : File) (evs : List Ev)
    (st st' : St) (evs' : List Ev)
    (hne : oldk ≠ newk) (hsrc : lookupFs st.fs oldk = some sf) :
    (fallback_copy_from_path oldk newk evs st = some (0, st', evs') →
      st'.fstats = st.fstats + 2 ∧
      lookupFs st'.fs newk = some ⟨sf.content, sf.mode &&& 0o777⟩) ∧
    (fallback_move_at oldk newk evs st = some (0, st', evs') →
      st'.fstats = st.fstats + 2) := by
  constructor
  · intro hrun
    rcases fallback_copy_from_path_cases hne hsrc hrun with
      ⟨-, -, hnew, hfst⟩ | ⟨hc, -⟩
    · exact ⟨hfst, hnew⟩
    · exact absurd hc (by decide)
  · intro hrun
    rcases fallback_move_at_cases hne hsrc hrun with
      ⟨-, -, -, hfst, -⟩ | ⟨hc, -⟩
    · exact hfst
    · exact absurd hc (by decide)

/-- Witness for the amended C8. -/
theorem C8_two_status_queries_witness :
    wkA ≠ wkB ∧ lookupFs wst0.fs wkA = some wfA ∧
    ((⟨[(wkA, wfA), (wkB, ⟨[7, 8], 0o644⟩)], 0, 2⟩ : St)).fstats =
      wst0.fstats + 2 ∧
    lookupFs ((⟨[(wkA, wfA), (wkB, ⟨[7, 8], 0o644⟩)], 0, 2⟩ : St)).fs wkB =
      some ⟨wfA.content, wfA.mode &&& 0o777⟩ := by
  have h := (C8_two_status_queries wkA wkB wfA
    [Ev.ok, Ev.ok, Ev.ok, Ev.ok, Ev.ok, Ev.ok, Ev.ok] wst0
    ⟨[(wkA, wfA), (wkB, ⟨[7, 8], 0o644⟩)], 0, 2⟩ []
    (by decide) (by decide)).1 (by decide)
  exact ⟨by decide, by decide, h.1, h.2⟩

/-- C10: the byte-range copier reads through an explicit offset cursor
starting at zero, so the descriptor-direct copy path is independent of
the caller descriptor's file position and a successful run copies the
entire file; and `linkat` routes `AT_EMPTY_PATH` with a null or empty
old path to that descriptor-direct path. -/
theorem C10_offset_cursor (k : Key) (pos pos2 : Nat) (newk : Key) (sf : File)
    (st : St) (hne : k ≠ newk) (hsrc : lookupFs st.fs k = some sf) :
    (∀ evs : List Ev, fallback_copy_from_fd ⟨k, pos⟩ newk evs st =
      fallback_copy_from_fd ⟨k, pos2⟩ newk evs st) ∧
    (∀ (evs : List Ev) (st' : St) (evs' : List Ev),
      fallback_copy_from_fd ⟨k, pos⟩ newk evs st = some (0, st', evs') →
      lookupFs st'.fs newk = some ⟨sf.content, sf.mode &&& 0o777⟩) ∧
    (∀ (oldfd : OpenFd) (od : Nat) (op : Option String) (nd : Nat) (np : String)
      (flags : Nat) (r : Int) (evs : List Ev),
      flags &&& AT_EMPTY_PATH ≠ 0 → (op = none ∨ op = some ("")) → r ≠ 0 →
      linkat oldfd od op nd np flags (Ev.ret r EXDEV :: evs) st =
        fallback_copy_from_fd oldfd (nd, np) evs { st with errno := EXDEV }) := by
  refine ⟨?_, ?_, ?_⟩
  · intro evs
    exact @fallback_copy_from_fd_congr ⟨k, pos⟩ ⟨k, pos2⟩ newk rfl evs st
  · intro evs st' evs' hrun
    rcases fallback_copy_from_fd_cases hne hsrc hrun with
      ⟨-, -, hnew, -⟩ | ⟨hc, -⟩
    · exact hnew
    · exact absurd hc (by decide)
  · intro oldfd od op nd np flags r evs hflag hop hr
    simp only [linkat, genuineStep]
    rw [if_neg (show ¬(r = 0 ∨
        ({ st with errno := EXDEV } : St).errno ≠ EXDEV) from
      fun hor => hor.elim hr (fun hne2 => hne2 rfl))]
    rw [if_pos ⟨hflag, hop⟩]

/-- Witness for C10 with the caller's descriptor positioned mid-file. -/
theorem C10_offset_cursor_witness :
    wkA ≠ wkB ∧ lookupFs wst0.fs wkA = some wfA ∧
    fallback_copy_from_fd ⟨wkA, 5⟩ wkB
        [Ev.ok, Ev.ok, Ev.ok, Ev.ok, Ev.ok, Ev.ok, Ev.ok] wst0 =
      fallback_copy_from_fd ⟨wkA, 0⟩ wkB
        [Ev.ok, Ev.ok, Ev.ok, Ev.ok, Ev.ok, Ev.ok, Ev.ok] wst0 ∧
    lookupFs ((⟨[(wkA, wfA), (wkB, ⟨[7, 8], 0o644⟩)], 0, 2⟩ : St)).fs wkB =
      some ⟨wfA.content, wfA.mode &&& 0o777⟩ ∧
    (AT_EMPTY_PATH &&& AT_EMPTY_PATH ≠ 0 ∧ ((-1 : Int) ≠ 0)) ∧
    linkat ⟨wkA, 5⟩ 7 none 8 "x" AT_EMPTY_PATH [Ev.ret (-1) EXDEV] wst0 =
      fallback_copy_from_fd ⟨wkA, 5⟩ (8, "x") [] { wst0 with errno := EXDEV } := by
  have h := C10_offset_cursor wkA 5 0 wkB wfA wst0 (by decide) (by decide)
  refine ⟨by decide, by decide, h.1 _, ?_, ⟨by decide, by decide⟩, ?_⟩
  · exact h.2.1 [Ev.ok, Ev.ok, Ev.ok, Ev.ok, Ev.ok, Ev.ok, Ev.ok]
      ⟨[(wkA, wfA), (wkB, ⟨[7, 8], 0o644⟩)], 0, 2⟩ [] (by decide)
  · exact h.2.2 ⟨wkA, 5⟩ 7 none 8 "x" AT_EMPTY_PATH (-1) [] (by decide)
      (Or.inl rfl) (by decide)

end LinkFallback
